import Mathlib

/-!
Verification development for the annotation store and document
synchronization engine of the vibe-notes extension.

The TypeScript sources are shallowly embedded: each JS regular expression
is compiled by hand into a deterministic backtracking matcher over
`List Char`, JS `String.prototype.replace` with single-character patterns
becomes a character map, two-character patterns become a left-to-right
non-overlapping scan, and the line-oriented state machines of the two
markdown extractors become explicit step functions over a state record.
JS `Map` objects are modelled as insertion-ordered association lists with
overwriting `set`; where a function only ever calls `Map.get`, the map is
passed as its lookup function.
-/

namespace VN

/-! ## JS character classes and basic string utilities -/

/-- The character set matched by the JS regex class `\s` (ECMA-262
WhiteSpace and LineTerminator code points). -/
def jsWsChar (c : Char) : Bool :=
  c = ' ' || c = '\t' || c = '\n' || c = '\x0b' || c = '\x0c' || c = '\r' ||
  c = '\u0020' || c = '\u00A0' || c = '\u1680' ||
  ('\u2000' ≤ c && c ≤ '\u200A') ||
  c = '\u2028' || c = '\u2029' || c = '\u202F' || c = '\u205F' ||
  c = '\u3000' || c = '\uFEFF'

/-- ECMA-262 LineTerminator code points, which the JS regex `.` (dotAll
off) refuses to match. -/
def isLineTerm (c : Char) : Bool :=
  c = '\n' || c = '\r' || c = '\u2028' || c = '\u2029'

/-- Boolean test that a list starts with the given pattern
(JS `String.prototype.startsWith` for the pattern as a char list). -/
def leadsWith : List Char → List Char → Bool
  | [], _ => true
  | _ :: _, [] => false
  | p :: ps, c :: cs => p = c && leadsWith ps cs

/-- JS `line.startsWith(pat)`. -/
def strLeads (pat s : String) : Bool :=
  leadsWith pat.data s.data

/-- JS `String.prototype.trim` on a char list: strip `\s` characters from
both ends. -/
def jsTrimChars (cs : List Char) : List Char :=
  ((cs.dropWhile jsWsChar).reverse.dropWhile jsWsChar).reverse

/-- JS `s.trim()`. -/
def jsTrim (s : String) : String :=
  String.mk (jsTrimChars s.data)

/-- Prepend a character to the first piece of a split. -/
def consHead (c : Char) : List (List Char) → List (List Char)
  | [] => [[c]]
  | h :: t => (c :: h) :: t

/-- JS `content.split("\n")` on a char list: split at every newline,
keeping empty pieces. -/
def splitNL : List Char → List (List Char)
  | [] => [[]]
  | c :: r => if c = '\n' then [] :: splitNL r else consHead c (splitNL r)

/-- JS `content.split("\n")`. -/
def jsSplitNL (s : String) : List String :=
  (splitNL s.data).map String.mk

/-- JS `sections.join("\n")` on char lists. -/
def joinNL : List (List Char) → List Char
  | [] => []
  | [x] => x
  | x :: y :: xs => x ++ '\n' :: joinNL (y :: xs)

/-- JS `split("-")` (used on the captured line spec). -/
def splitDash : List Char → List (List Char)
  | [] => [[]]
  | c :: r => if c = '-' then [] :: splitDash r else consHead c (splitDash r)

/-- Numeric value of a decimal digit string
(`Number`/`parseInt` restricted to the all-digit strings produced by the
regex captures). -/
def digitsToNat (cs : List Char) : Nat :=
  cs.foldl (fun a c => 10 * a + (c.toNat - 48)) 0

/-! ## The record codec: `src/src/util/noteParser.ts` -/

/-- `interface Note` of `noteParser.ts` (line numbers are the
non-negative integers produced by `Number` on the digit captures). -/
structure Note where
  filePath : String
  startLine : Nat
  endLine : Nat
  comment : String
  raw : String
  deriving Repr, DecidableEq

/-- `interface ParseError` of `noteParser.ts`. -/
structure ParseError where
  line : Nat
  content : String
  error : String
  deriving Repr, DecidableEq

/-- Body scanner for `noteLineRegex`: given the characters after the
opening quote, consume `((?:[^"\\]|\\.)*)`, require the closing `"` and
then `\s*$`; return the raw captured body.  Closing happens at the first
unescaped quote: body tokens are a single non-quote non-backslash
character or a backslash followed by any non-LineTerminator character, so
no backtracking past a quote is possible. -/
def scanBody : List Char → Option (List Char)
  | [] => none
  | c :: rest =>
    if c = '"' then
      if rest.all jsWsChar then some [] else none
    else if c = '\\' then
      match rest with
      | [] => none
      | d :: rest' =>
        if isLineTerm d then none
        else (scanBody rest').map (fun b => '\\' :: d :: b)
    else (scanBody rest).map (fun b => c :: b)

/-- After `(.+?)#L`, match `(\d+(?:-\d+)?)\s+"((?:[^"\\]|\\.)*)"\s*$`.
`\d+` is a maximal digit run (backtracking it cannot help because the
following `\s`/`-`/`"` never match a digit), likewise the optional
`-\d+`. Returns the captured spec and raw body. -/
def matchTailCont (spec r2 : List Char) : Option (List Char × List Char) :=
  let ws := r2.takeWhile jsWsChar
  if ws = [] then none
  else
    match r2.drop ws.length with
    | c :: r3 => if c = '"' then (scanBody r3).map (fun b => (spec, b)) else none
    | [] => none

/-- See `matchTailCont` for the common `\s+"..."\s*$` continuation. -/
def matchTail (cs : List Char) : Option (List Char × List Char) :=
  let d1 := cs.takeWhile Char.isDigit
  if d1 = [] then none
  else
    match cs.drop d1.length with
    | c :: t =>
      if c = '-' then
        let d2 := t.takeWhile Char.isDigit
        if d2 = [] then none else matchTailCont (d1 ++ '-' :: d2) (t.drop d2.length)
      else matchTailCont d1 (c :: t)
    | [] => matchTailCont d1 []

/-- The lazy group `^(.+?)` of `noteLineRegex`: try the shortest file
path first; at each position, if the input continues with `#L` and the
tail matches, succeed, otherwise extend the path by one (non
LineTerminator) character. -/
def noteMatchGo (acc : List Char) : List Char → Option (List Char × List Char × List Char)
  | [] => none
  | c :: r =>
    (if c = '#' then
      match r with
      | d :: r2 =>
        if d = 'L' then
          if acc.isEmpty then none
          else (matchTail r2).map (fun p => (acc, p.1, p.2))
        else none
      | [] => none
    else none)
    <|>
    (if isLineTerm c then none else noteMatchGo (acc ++ [c]) r)

/-- Match of `noteLineRegex` against a whole line: captures
`(filePath, positionSpec, rawComment)`. -/
def noteLineMatch (line : String) : Option (List Char × List Char × List Char) :=
  noteMatchGo [] line.data

/-- JS `s.replace(/<a><b>/g, repl)` for a two-character pattern:
left-to-right, non-overlapping. -/
def jsReplace2 (a b : Char) (repl : List Char) : List Char → List Char
  | [] => []
  | [c] => [c]
  | c :: d :: rest =>
    if c = a ∧ d = b then repl ++ jsReplace2 a b repl rest
    else c :: jsReplace2 a b repl (d :: rest)

/-- The comment unescaping of `parseNote`:
`raw.replace(/\\n/g, "\n").replace(/\\"/g, '"').replace(/\\\\/g, "\\")`. -/
def unescapeChars (cs : List Char) : List Char :=
  jsReplace2 '\\' '\\' ['\\'] (jsReplace2 '\\' '"' ['"'] (jsReplace2 '\\' 'n' ['\n'] cs))

/-- `parseNote` of `noteParser.ts`. -/
def parseNote (line : String) : Option Note :=
  (noteLineMatch line).map (fun m =>
    let filePath := m.1
    let positionSpec := m.2.1
    let rawComment := m.2.2
    let comment := unescapeChars rawComment
    let (startLine, endLine) :=
      if positionSpec.contains '-' then
        let parts := splitDash positionSpec
        (digitsToNat (parts.headD []), digitsToNat (parts.tail.headD []))
      else
        (digitsToNat positionSpec, digitsToNat positionSpec)
    { filePath := String.mk filePath
      startLine := startLine
      endLine := endLine
      comment := String.mk comment
      raw := line })

/-- The indexed `forEach` of `parseNoteFileWithErrors`: skip
whitespace-only lines, collect parsed notes and line-numbered errors.
`idx` is the 0-based index of the first element of `lines`. -/
def parseNoteLines : List String → Nat → List Note × List ParseError
  | [], _ => ([], [])
  | line :: rest, idx =>
    let (notes, errors) := parseNoteLines rest (idx + 1)
    if jsTrim line = "" then (notes, errors)
    else
      match parseNote line with
      | some n => (n :: notes, errors)
      | none => (notes, { line := idx + 1, content := line, error := "Invalid format" } :: errors)

/-- `parseNoteFileWithErrors` of `noteParser.ts` (the `success` flag is
`errors.length === 0`; the result is the pair of the two lists). -/
def parseNoteFileWithErrors (content : String) : List Note × List ParseError :=
  parseNoteLines (jsSplitNL content) 0

/-! ## The serializer: `MemoFileHandler.formatLineSpec` / `escapeComment` -/

/-- `interface ReviewComment` of `reviewCommentParser.ts`. -/
structure ReviewComment where
  filePath : String
  startLine : Nat
  endLine : Nat
  startColumn : Option Nat
  endColumn : Option Nat
  comment : String
  raw : String
  deriving Repr, DecidableEq

/-- `MemoFileHandler.formatLineSpec`. -/
def formatLineSpec (startLine endLine : Nat) (startColumn endColumn : Option Nat) : String :=
  if startLine = endLine then
    match startColumn with
    | some c => Nat.repr startLine ++ "," ++ Nat.repr c
    | none => Nat.repr startLine
  else
    match startColumn, endColumn with
    | some c1, some c2 =>
      Nat.repr startLine ++ "," ++ Nat.repr c1 ++ "-" ++ Nat.repr endLine ++ "," ++ Nat.repr c2
    | _, _ => Nat.repr startLine ++ "-" ++ Nat.repr endLine

/-- JS `s.replace(/<c>/g, repl)` for a single-character pattern. -/
def jsReplace1 (p : Char) (repl : List Char) (cs : List Char) : List Char :=
  cs.flatMap (fun c => if c = p then repl else [c])

/-- `MemoFileHandler.escapeComment` on char lists:
`.replace(/\\/g,'\\\\').replace(/"/g,'\\"').replace(/\n/g,'\\n')`. -/
def escapeChars (cs : List Char) : List Char :=
  jsReplace1 '\n' ['\\', 'n'] (jsReplace1 '"' ['\\', '"'] (jsReplace1 '\\' ['\\', '\\'] cs))

/-- `MemoFileHandler.escapeComment`. -/
def escapeComment (comment : String) : String :=
  String.mk (escapeChars comment.data)

/-- The store line built by `MemoFileHandler.addComment`:
`` `${filePath}#L${lineSpec} "${escapedComment}"` ``. -/
def encodeNoteLine (filePath : String) (startLine endLine : Nat)
    (startColumn endColumn : Option Nat) (comment : String) : String :=
  filePath ++ "#L" ++ formatLineSpec startLine endLine startColumn endColumn ++
    " \"" ++ escapeComment comment ++ "\""

/-! ## The markdown heading regexes shared by both extractors -/

/-- Match of `/^##\s+\[(.+?)\]/`: `##`, at least one `\s`, `[`, then the
lazy capture runs to the first `]` (at least one character, no
LineTerminator, which `.` cannot cross). -/
def fileHeaderMatch (line : String) : Option String :=
  match line.data with
  | c1 :: c2 :: rest =>
    if c1 = '#' ∧ c2 = '#' then
      let ws := rest.takeWhile jsWsChar
      if ws = [] then none
      else
        match rest.drop ws.length with
        | c3 :: r3 =>
          if c3 = '[' then
            let pre := r3.takeWhile (fun c => c ≠ ']')
            if r3.contains ']' ∧ pre ≠ [] ∧ pre.all (fun c => !isLineTerm c) then
              some (String.mk pre)
            else none
          else none
        | [] => none
    else none
  | _ => none

/-- Match of `/^###\s+\[L([\d\-]+)\]\(.*?\)/`: `###`, `\s+`, `[L`, a
maximal nonempty run of digits and dashes (the capture), `](`, then a `)`
reachable without crossing a LineTerminator. -/
def lineHeaderMatch (line : String) : Option String :=
  match line.data with
  | c1 :: c2 :: c3 :: rest =>
    if c1 = '#' ∧ c2 = '#' ∧ c3 = '#' then
      let ws := rest.takeWhile jsWsChar
      if ws = [] then none
      else
        match rest.drop ws.length with
        | c4 :: c5 :: r3 =>
          if c4 = '[' ∧ c5 = 'L' then
            let spec := r3.takeWhile (fun c => c.isDigit || c = '-')
            if spec = [] then none
            else
              match r3.drop spec.length with
              | c6 :: c7 :: r4 =>
                if c6 = ']' ∧ c7 = '(' then
                  let pre := r4.takeWhile (fun c => c ≠ ')')
                  if r4.contains ')' ∧ pre.all (fun c => !isLineTerm c) then
                    some (String.mk spec)
                  else none
                else none
              | _ => none
          else none
        | _ => none
    else none
  | _ => none

/-- JS `lines.join("\n")` for a list of line strings. -/
def joinLines (ls : List String) : String :=
  String.mk (joinNL (ls.map String.data))

/-! ## The extractor `parseMarkdownComments` and the reconciler
`applyMarkdownChanges`: `src/src/util/markdownParser.ts` -/

/-- Insertion-ordered association list with overwriting `set`
(the JS `Map` of `parseMarkdownComments`). -/
def mapSet : List (String × String) → String → String → List (String × String)
  | [], k, v => [(k, v)]
  | (k', v') :: rest, k, v =>
    if k' = k then (k', v) :: rest else (k', v') :: mapSet rest k v

/-- JS `Map.get`. -/
def mapGet (m : List (String × String)) (k : String) : Option String :=
  (m.find? (fun p => p.1 == k)).map (fun p => p.2)

/-- The loop state of `parseMarkdownComments`. -/
structure PMCState where
  currentFile : Option String
  currentLineSpec : Option String
  collectingComment : Bool
  commentLines : List String
  acc : List (String × String)
  deriving Repr

/-- The flush `commentMap.set(`...`, commentLines.join("\n").trim())`
guarded by `currentFile && currentLineSpec && commentLines.length > 0`
(the captures are nonempty strings, so JS truthiness is `isSome`). -/
def pmcFlush (st : PMCState) : List (String × String) :=
  match st.currentFile, st.currentLineSpec with
  | some f, some spec =>
    if st.commentLines ≠ [] then
      mapSet st.acc (f ++ "#L" ++ spec) (jsTrim (joinLines st.commentLines))
    else st.acc
  | _, _ => st.acc

/-- One iteration of the `parseMarkdownComments` loop; `nextLine` is
`lines[i + 1]` or `""` past the end. -/
def pmcStep (st : PMCState) (line nextLine : String) : PMCState :=
  match fileHeaderMatch line with
  | some f =>
    { currentFile := some f, currentLineSpec := none, collectingComment := false,
      commentLines := [], acc := pmcFlush st }
  | none =>
    match lineHeaderMatch line, st.currentFile with
    | some spec, some f =>
      let acc' :=
        match st.currentLineSpec with
        | some spec0 =>
          if st.commentLines ≠ [] then
            mapSet st.acc (f ++ "#L" ++ spec0) (jsTrim (joinLines st.commentLines))
          else st.acc
        | none => st.acc
      { st with
        currentLineSpec := some spec, collectingComment := true,
        commentLines := [], acc := acc' }
    | _, _ =>
      if st.collectingComment then
        if strLeads "> " line then st
        else if line = "" ∧ (strLeads "##" nextLine || strLeads "###" nextLine) then
          { st with collectingComment := false, commentLines := [], acc := pmcFlush st }
        else if line ≠ "" ∨ st.commentLines ≠ [] then
          { st with commentLines := st.commentLines ++ [line] }
        else st
      else st

/-- The `for` loop of `parseMarkdownComments`. -/
def pmcLoop : List String → PMCState → PMCState
  | [], st => st
  | line :: rest, st => pmcLoop rest (pmcStep st line (rest.headD ""))

/-- `parseMarkdownComments` of `util/markdownParser.ts` (the returned JS
`Map` as its insertion-ordered entry list). -/
def parseMarkdownComments (content : String) : List (String × String) :=
  pmcFlush (pmcLoop (jsSplitNL content) ⟨none, none, false, [], []⟩)

/-- The key `` `${comment.filePath}#L${lineSpec}` `` computed by
`applyMarkdownChanges` (and by `findMatchingComment`). -/
def reviewKey (c : ReviewComment) : String :=
  c.filePath ++ "#L" ++
    (if c.startLine = c.endLine then Nat.repr c.startLine
     else Nat.repr c.startLine ++ "-" ++ Nat.repr c.endLine)

/-- `applyMarkdownChanges` of `util/markdownParser.ts`; the markdown
`Map` is passed as its `get` function (the only operation the source
performs on it).  Returns `(updatedComments, hasChanges)`. -/
def applyMarkdownChanges :
    List ReviewComment → (String → Option String) → List ReviewComment × Bool
  | [], _ => ([], false)
  | c :: rest, m =>
    let (updated, has) := applyMarkdownChanges rest m
    match m (reviewKey c) with
    | some nc =>
      if nc ≠ c.comment then ({ c with comment := nc } :: updated, true)
      else (updated, has)
    | none => (updated, has)

/-! ## The extractor `parseMarkdownToNotes`:
`src/src/formatting/MarkdownParser.ts` -/

/-- `interface ParsedNote` of `formatting/MarkdownParser.ts`. -/
structure ParsedNote where
  filePath : String
  startLine : Nat
  endLine : Nat
  comment : String
  deriving Repr, DecidableEq

/-- `parseInt(s, 10)` restricted to the strings that reach it here: the
pieces of a `[\d\-]+` capture split on `-`, i.e. all-digit strings, where
only the empty string gives `NaN`.  (Values are non-negative, so the
`< 0` rejections of the source can never fire and are omitted.) -/
def parseIntDigits (cs : List Char) : Option Nat :=
  if cs = [] then none else some (digitsToNat cs)

/-- Result of `parseLineSpec` in `formatting/MarkdownParser.ts`. -/
inductive LineSpecResult where
  | note (n : ParsedNote)
  | error (e : String)
  deriving Repr, DecidableEq

/-- `parseLineSpec` of `formatting/MarkdownParser.ts` (the variant with
the "must be non-negative" wording; both `< 0` checks are vacuous on
`\d`-only captures). -/
def parseLineSpecMD (filePath lineSpec noteText : String) : LineSpecResult :=
  if noteText = "" then
    .error ("Empty note for " ++ filePath ++ "#L" ++ lineSpec)
  else if lineSpec.data.contains '-' then
    let parts := splitDash lineSpec.data
    match parseIntDigits (parts.headD []), parseIntDigits ((parts.drop 1).headD []) with
    | some s, some e =>
      if s > e then .error ("Invalid range (start > end): " ++ lineSpec)
      else .note ⟨filePath, s, e, noteText⟩
    | _, _ => .error ("Invalid line range: " ++ lineSpec)
  else
    match parseIntDigits lineSpec.data with
    | some l => .note ⟨filePath, l, l, noteText⟩
    | none => .error ("Invalid line number: " ++ lineSpec)

/-- The loop state of `parseMarkdownToNotes`. -/
structure PMTState where
  foundFirstHeading : Bool
  currentFile : Option String
  currentLineSpec : Option String
  collectingNote : Bool
  noteLines : List String
  notes : List ParsedNote
  errors : List String
  deriving Repr

/-- Push the `parseLineSpec` result of one section into the accumulators
(`errors.push` / `notes.push`). -/
def pmtFlushInto (f spec : String) (buf : List String)
    (notes : List ParsedNote) (errors : List String) :
    List ParsedNote × List String :=
  match parseLineSpecMD f spec (jsTrim (joinLines buf)) with
  | .error e => (notes, errors ++ [e])
  | .note n => (notes ++ [n], errors)

/-- The guarded "save previous note" flush of `parseMarkdownToNotes`. -/
def pmtFlush (st : PMTState) : List ParsedNote × List String :=
  match st.currentFile, st.currentLineSpec with
  | some f, some spec =>
    if st.noteLines ≠ [] then pmtFlushInto f spec st.noteLines st.notes st.errors
    else (st.notes, st.errors)
  | _, _ => (st.notes, st.errors)

/-- The body-collection branch of the `parseMarkdownToNotes` loop. -/
def pmtBody (st : PMTState) (line nextLine : String) : PMTState :=
  if st.collectingNote then
    if strLeads "> " line then st
    else if line = "" ∧ (strLeads "##" nextLine || strLeads "###" nextLine) then
      let (ns, es) := pmtFlush st
      { st with collectingNote := false, noteLines := [], notes := ns, errors := es }
    else if line ≠ "" ∨ st.noteLines ≠ [] then
      { st with noteLines := st.noteLines ++ [line] }
    else st
  else st

/-- One iteration of the `parseMarkdownToNotes` loop. -/
def pmtStep (st : PMTState) (line nextLine : String) : PMTState :=
  if ¬ st.foundFirstHeading then
    if strLeads "# " line then { st with foundFirstHeading := true } else st
  else if line = "## // Notes" then
    let (ns, es) := pmtFlush st
    { st with
      currentFile := some "/", currentLineSpec := some "0",
      collectingNote := true, noteLines := [], notes := ns, errors := es }
  else
    match fileHeaderMatch line with
    | some f =>
      let (ns, es) := pmtFlush st
      { st with
        currentFile := some f, currentLineSpec := none,
        collectingNote := false, noteLines := [], notes := ns, errors := es }
    | none =>
      match lineHeaderMatch line, st.currentFile with
      | some spec, some f =>
        if f ≠ "/" then
          let (ns, es) :=
            match st.currentLineSpec with
            | some spec0 =>
              if st.noteLines ≠ [] then pmtFlushInto f spec0 st.noteLines st.notes st.errors
              else (st.notes, st.errors)
            | none => (st.notes, st.errors)
          { st with
            currentLineSpec := some spec, collectingNote := true,
            noteLines := [], notes := ns, errors := es }
        else pmtBody st line nextLine
      | _, _ => pmtBody st line nextLine

/-- The `for` loop of `parseMarkdownToNotes`. -/
def pmtLoop : List String → PMTState → PMTState
  | [], st => st
  | line :: rest, st => pmtLoop rest (pmtStep st line (rest.headD ""))

/-- `parseMarkdownToNotes` of `formatting/MarkdownParser.ts`
(returns `(notes, errors)`). -/
def parseMarkdownToNotes (content : String) : List ParsedNote × List String :=
  pmtFlush (pmtLoop (jsSplitNL content) ⟨false, none, none, false, [], [], []⟩)

/-! ## The code excerpt formatter: `src/src/formatting/CodeFormatter.ts` -/

/-- Leading indentation in columns: a space counts 1, a tab counts 4,
stop at the first other character. -/
def leadingIndentGo : List Char → Nat
  | ' ' :: r => 1 + leadingIndentGo r
  | '\t' :: r => 4 + leadingIndentGo r
  | _ => 0

/-- `calculateMinimumIndent` (the `Infinity` accumulator is modelled by
`Option Nat`, `none` standing for `Infinity`). -/
def calculateMinimumIndent (lines : List String) : Nat :=
  let m := lines.foldl
    (fun (acc : Option Nat) line =>
      if jsTrim line ≠ "" then
        let ind := leadingIndentGo line.data
        match acc with
        | none => some ind
        | some a => some (Nat.min a ind)
      else acc)
    none
  m.getD 0

/-- The `while` loop of `removeIndent`. -/
def removeIndentGo : List Char → Nat → Nat → List Char
  | [], _, _ => []
  | c :: r, removed, toRemove =>
    if removed < toRemove then
      if c = ' ' then removeIndentGo r (removed + 1) toRemove
      else if c = '\t' then removeIndentGo r (removed + 4) toRemove
      else c :: r
    else c :: r

/-- `removeIndent` of `CodeFormatter.ts`. -/
def removeIndent (line : String) (indentToRemove : Nat) : String :=
  if indentToRemove = 0 ∨ jsTrim line = "" then line
  else String.mk (removeIndentGo line.data 0 indentToRemove)

/-- JS `String.prototype.padStart` with a space filler. -/
def padStartChars (cs : List Char) (w : Nat) : List Char :=
  List.replicate (w - cs.length) ' ' ++ cs

/-- `generateCodePreview` of `CodeFormatter.ts`.  The JS loop index runs
from `startLine` to `min(endLine, fileLines.length)`; index `0` reads
`fileLines[-1] === undefined` and is skipped. -/
def generateCodePreview (fileLines : List String) (startLine endLine : Nat) : List String :=
  if fileLines = [] then []
  else
    let actualEndLine := Nat.min endLine fileLines.length
    let maxLineNumWidth := (Nat.repr actualEndLine).length
    let targets := (List.range' startLine (actualEndLine + 1 - startLine)).filterMap
      (fun lineNum =>
        if lineNum = 0 then none
        else (fileLines.get? (lineNum - 1)).map (fun content => (lineNum, content)))
    let minIndent := calculateMinimumIndent (targets.map (fun t => t.2))
    targets.map (fun t =>
      String.mk ('>' :: ' ' :: padStartChars (Nat.repr t.1).data maxLineNumWidth ++
        ':' :: ' ' :: (removeIndent t.2 minIndent).data))

/-! ## The renderer: `src/src/formatting/MarkdownGenerator.ts` -/

/-- The sections pushed for one note: range heading, blank, optional
excerpt block with trailing blank, body, blank. -/
def noteSections (filePath : String) (fileLines : List String) (includeCode : Bool)
    (n : Note) : List String :=
  ("### [" ++
      (if n.startLine = n.endLine then "L" ++ Nat.repr n.startLine
       else "L" ++ Nat.repr n.startLine ++ "-" ++ Nat.repr n.endLine) ++
      "](" ++ filePath ++ "#L" ++ Nat.repr n.startLine ++ ")") ::
  "" ::
  ((if includeCode ∧ fileLines ≠ [] then
      let cp := generateCodePreview fileLines n.startLine n.endLine
      if cp ≠ [] then cp ++ [""] else []
    else [])
   ++ [n.comment, ""])

/-- `fileNotes.sort((a, b) => a.startLine - b.startLine)` (V8 sort is
stable). -/
def sortNotes (ns : List Note) : List Note :=
  ns.mergeSort (fun a b => a.startLine ≤ b.startLine)

/-- The sections pushed for one file group.  The `vscode` file read is
abstracted by `fl : String → Option String`, `none` being the `catch`
path that leaves `fileLines` empty. -/
def fileSections (notes : List Note) (fl : String → Option String) (includeCode : Bool)
    (filePath : String) : List String :=
  let fileLines :=
    if includeCode then
      match fl filePath with
      | some content => jsSplitNL content
      | none => []
    else []
  ("## [" ++ filePath ++ "](" ++ filePath ++ ")") :: "" ::
    (sortNotes (notes.filter (fun n => n.filePath == filePath))).flatMap
      (noteSections filePath fileLines includeCode)

/-- `generateEnhancedMarkdown` of `MarkdownGenerator.ts`: group by file
path (`Object.keys(...).sort()` gives the distinct paths in lexicographic
order), emit the sections, drop a trailing empty section, join with
newlines. -/
def generateEnhancedMarkdown (notes : List Note) (fl : String → Option String)
    (includeCode : Bool) : String :=
  if notes = [] then "*No notes found*"
  else
    let sortedFilePaths := ((notes.map (fun n => n.filePath)).dedup).mergeSort
      (fun a b => a ≤ b)
    let sections := sortedFilePaths.flatMap (fileSections notes fl includeCode)
    let sections := if sections.getLast? = some "" then sections.dropLast else sections
    String.mk (joinNL (sections.map String.data))

/-- The `Note` fields of a stored `ReviewComment` (the two record types
share `filePath`/`startLine`/`endLine`/`comment`/`raw`). -/
def toNote (c : ReviewComment) : Note :=
  ⟨c.filePath, c.startLine, c.endLine, c.comment, c.raw⟩

/-! ## Decimal representation facts -/

/-- The digit characters of `n` in order (reference recursion for
`Nat.toDigitsCore`). -/
def natDigs (n : Nat) : List Char :=
  if _h : n < 10 then [Nat.digitChar n]
  else natDigs (n / 10) ++ [Nat.digitChar (n % 10)]
  decreasing_by exact Nat.div_lt_self (by omega) (by omega)

theorem digitChar_isDigit {k : Nat} (h : k < 10) :
    (Nat.digitChar k).isDigit = true := by
  interval_cases k <;> decide

theorem digitChar_val {k : Nat} (h : k < 10) :
    (Nat.digitChar k).toNat - 48 = k := by
  interval_cases k <;> decide

theorem toDigitsCore_eq (fuel n : Nat) (ds : List Char) (h : n < fuel) :
    Nat.toDigitsCore 10 fuel n ds = natDigs n ++ ds := by
  induction fuel generalizing n ds with
  | zero => omega
  | succ fuel ih =>
    rw [Nat.toDigitsCore]
    by_cases h10 : n / 10 = 0
    · have hn : n < 10 := by omega
      simp only [h10, if_true]
      rw [natDigs, dif_pos hn, Nat.mod_eq_of_lt hn]
      rfl
    · have hge : 10 ≤ n := by
        by_contra hlt
        exact h10 (Nat.div_eq_of_lt (by omega))
      have hfuel : n / 10 < fuel := by
        have h1 : n / 10 < n := Nat.div_lt_self (by omega) (by omega)
        omega
      have hnd : natDigs n = natDigs (n / 10) ++ [Nat.digitChar (n % 10)] := by
        rw [natDigs, dif_neg (by omega)]
      rw [if_neg h10, ih (n / 10) _ hfuel, hnd]
      simp

theorem repr_data (n : Nat) : (Nat.repr n).data = natDigs n := by
  show (Nat.toDigits 10 n).asString.data = natDigs n
  rw [Nat.toDigits, toDigitsCore_eq (n + 1) n [] (Nat.lt_succ_self n)]
  simp [List.asString]

theorem natDigs_all_digit (n : Nat) : ∀ c ∈ natDigs n, c.isDigit = true := by
  induction n using Nat.strong_induction_on with
  | _ n ih =>
    rw [natDigs]
    by_cases h : n < 10
    · simp only [dif_pos h]
      intro c hc
      simp only [List.mem_singleton] at hc
      subst hc
      exact digitChar_isDigit h
    · simp only [dif_neg h]
      intro c hc
      rcases List.mem_append.1 hc with h1 | h2
      · exact ih (n / 10) (Nat.div_lt_self (by omega) (by omega)) c h1
      · simp only [List.mem_singleton] at h2
        subst h2
        exact digitChar_isDigit (Nat.mod_lt _ (by omega))

theorem natDigs_ne_nil (n : Nat) : natDigs n ≠ [] := by
  rw [natDigs]
  by_cases h : n < 10 <;> simp [h]

theorem digitsToNat_append_singleton (xs : List Char) (c : Char) :
    digitsToNat (xs ++ [c]) = 10 * digitsToNat xs + (c.toNat - 48) := by
  simp [digitsToNat, List.foldl_append]

theorem digitsToNat_natDigs (n : Nat) : digitsToNat (natDigs n) = n := by
  induction n using Nat.strong_induction_on with
  | _ n ih =>
    rw [natDigs]
    by_cases h : n < 10
    · simp only [dif_pos h]
      show 10 * 0 + ((Nat.digitChar n).toNat - 48) = n
      rw [digitChar_val h]
      omega
    · simp only [dif_neg h]
      rw [digitsToNat_append_singleton,
        ih (n / 10) (Nat.div_lt_self (by omega) (by omega)),
        digitChar_val (Nat.mod_lt _ (by omega))]
      omega

theorem digitsToNat_repr (n : Nat) : digitsToNat (Nat.repr n).data = n := by
  rw [repr_data, digitsToNat_natDigs]

/-! ## List scanning helper lemmas -/

theorem takeWhile_append_all {p : Char → Bool} {xs : List Char}
    (h : ∀ c ∈ xs, p c = true) (ys : List Char) :
    (xs ++ ys).takeWhile p = xs ++ ys.takeWhile p := by
  induction xs with
  | nil => simp
  | cons c r ih =>
    have hc := h c (List.mem_cons_self c r)
    simp [List.takeWhile_cons, hc, ih (fun d hd => h d (List.mem_cons_of_mem c hd))]

theorem dropWhile_append_all {p : Char → Bool} {xs : List Char}
    (h : ∀ c ∈ xs, p c = true) (ys : List Char) :
    (xs ++ ys).dropWhile p = ys.dropWhile p := by
  induction xs with
  | nil => simp
  | cons c r ih =>
    have hc := h c (List.mem_cons_self c r)
    simp [List.dropWhile_cons, hc, ih (fun d hd => h d (List.mem_cons_of_mem c hd))]

theorem dropWhile_dropWhile {p : Char → Bool} (xs : List Char) :
    (xs.dropWhile p).dropWhile p = xs.dropWhile p := by
  induction xs with
  | nil => rfl
  | cons c r ih =>
    by_cases h : p c
    · simpa [List.dropWhile_cons, h] using ih
    · simp [List.dropWhile_cons, h]

/-! ## `splitNL` and `joinNL` -/

theorem consHead_ne_nil (c : Char) (ls : List (List Char)) : consHead c ls ≠ [] := by
  cases ls <;> simp [consHead]

theorem consHead_append (c : Char) {ls : List (List Char)} (h : ls ≠ [])
    (ms : List (List Char)) : consHead c (ls ++ ms) = consHead c ls ++ ms := by
  cases ls with
  | nil => exact absurd rfl h
  | cons x t => simp [consHead]

theorem splitNL_ne_nil (cs : List Char) : splitNL cs ≠ [] := by
  cases cs with
  | nil => simp [splitNL]
  | cons c r =>
    rw [splitNL]
    by_cases h : c = '\n'
    · simp [h]
    · simp only [if_neg h]
      exact consHead_ne_nil c _

theorem mem_consHead {c : Char} {ls : List (List Char)} {piece : List Char}
    (h : piece ∈ consHead c ls) :
    (∃ h0 ∈ ls, piece = c :: h0) ∨ piece ∈ ls ∨ (ls = [] ∧ piece = [c]) := by
  cases ls with
  | nil =>
    simp only [consHead, List.mem_singleton] at h
    exact Or.inr (Or.inr ⟨rfl, h⟩)
  | cons x t =>
    simp only [consHead, List.mem_cons] at h
    rcases h with rfl | h
    · exact Or.inl ⟨x, List.mem_cons_self x t, rfl⟩
    · exact Or.inr (Or.inl (List.mem_cons_of_mem x h))

theorem mem_splitNL_no_nl (cs : List Char) :
    ∀ piece ∈ splitNL cs, '\n' ∉ piece := by
  induction cs with
  | nil => simp [splitNL]
  | cons c r ih =>
    rw [splitNL]
    by_cases h : c = '\n'
    · simp only [if_pos h]
      intro piece hp
      rcases List.mem_cons.1 hp with rfl | hp'
      · simp
      · exact ih piece hp'
    · simp only [if_neg h]
      intro piece hp
      rcases mem_consHead hp with ⟨h0, hh0, rfl⟩ | hp' | ⟨_, rfl⟩
      · intro hmem
        rcases List.mem_cons.1 hmem with h1 | h1
        · exact h h1.symm
        · exact ih h0 hh0 h1
      · exact ih piece hp'
      · intro hmem
        rcases List.mem_cons.1 hmem with h1 | h1
        · exact h h1.symm
        · simp at h1

theorem splitNL_no_nl {cs : List Char} (h : '\n' ∉ cs) : splitNL cs = [cs] := by
  induction cs with
  | nil => rfl
  | cons c r ih =>
    rw [splitNL]
    have hc : c ≠ '\n' := fun hc => h (hc ▸ List.mem_cons_self c r)
    rw [if_neg hc, ih (fun hr => h (List.mem_cons_of_mem c hr))]
    rfl

theorem splitNL_cons_nl (r : List Char) : splitNL ('\n' :: r) = [] :: splitNL r := by
  rw [splitNL, if_pos rfl]

theorem splitNL_cons {c : Char} (r : List Char) (h : c ≠ '\n') :
    splitNL (c :: r) = consHead c (splitNL r) := by
  rw [splitNL, if_neg h]

theorem splitNL_append (a b : List Char) :
    splitNL (a ++ '\n' :: b) = splitNL a ++ splitNL b := by
  induction a with
  | nil => simp [splitNL]
  | cons c r ih =>
    by_cases h : c = '\n'
    · subst h
      rw [List.cons_append, splitNL_cons_nl, splitNL_cons_nl, ih, List.cons_append]
    · rw [List.cons_append, splitNL_cons _ h, splitNL_cons _ h, ih,
        consHead_append c (splitNL_ne_nil r)]

theorem splitNL_joinNL (sections : List (List Char)) (h : sections ≠ []) :
    splitNL (joinNL sections) = sections.flatMap splitNL := by
  induction sections with
  | nil => exact absurd rfl h
  | cons x rest ih =>
    cases rest with
    | nil => simp [joinNL]
    | cons y t =>
      rw [joinNL, splitNL_append, ih (by simp)]
      simp

theorem joinNL_cons_cons (c : Char) (h : List Char) (t : List (List Char)) :
    joinNL ((c :: h) :: t) = c :: joinNL (h :: t) := by
  cases t with
  | nil => rfl
  | cons y t' => simp [joinNL]

theorem joinNL_consHead (c : Char) {ls : List (List Char)} (h : ls ≠ []) :
    joinNL (consHead c ls) = c :: joinNL ls := by
  cases ls with
  | nil => exact absurd rfl h
  | cons x t => exact joinNL_cons_cons c x t

theorem joinNL_splitNL (cs : List Char) : joinNL (splitNL cs) = cs := by
  induction cs with
  | nil => rfl
  | cons c r ih =>
    by_cases h : c = '\n'
    · subst h
      rw [splitNL_cons_nl]
      rcases hs : splitNL r with _ | ⟨h1, t1⟩
      · exact absurd hs (splitNL_ne_nil r)
      · have h2 : joinNL ([] :: h1 :: t1) = '\n' :: joinNL (h1 :: t1) := rfl
        rw [hs] at ih
        rw [h2, ih]
    · rw [splitNL_cons _ h, joinNL_consHead c (splitNL_ne_nil r), ih]

/-! ## `jsTrim` facts -/

theorem dropWhile_head_false {p : Char → Bool} {xs ys : List Char}
    (h : xs.dropWhile p = ys) (hy : ys ≠ []) : p (ys.headD ' ') = false := by
  subst h
  induction xs with
  | nil => exact absurd rfl hy
  | cons c r ih =>
    by_cases hc : p c
    · rw [List.dropWhile_cons, if_pos hc] at hy ⊢
      exact ih hy
    · rw [List.dropWhile_cons, if_neg hc] at hy ⊢
      simpa using hc

theorem dropWhile_trimRight {L : List Char} (hdL : L.dropWhile jsWsChar = L) :
    ((L.reverse.dropWhile jsWsChar).reverse).dropWhile jsWsChar =
      (L.reverse.dropWhile jsWsChar).reverse := by
  rcases hTe : (L.reverse.dropWhile jsWsChar).reverse with _ | ⟨c, r⟩
  · rfl
  · -- the right-trimmed list is a prefix of `L`, so its head is `L`'s
    -- head, which the left trim has already accepted as non-whitespace
    have hLfix : ∃ k, L = (c :: r) ++ k := by
      have hsuffix : (c :: r).reverse <:+ L.reverse := by
        have h2 : (c :: r).reverse = L.reverse.dropWhile jsWsChar := by
          rw [← hTe, List.reverse_reverse]
        rw [h2]
        exact List.dropWhile_suffix _
      rcases hsuffix with ⟨pre, hpre⟩
      refine ⟨pre.reverse, ?_⟩
      have h2 := congrArg List.reverse hpre
      simpa [List.reverse_append] using h2.symm
    rcases hLfix with ⟨k, hk⟩
    have hc : jsWsChar c = false := by
      have h3 := @dropWhile_head_false jsWsChar L
        (L.dropWhile jsWsChar) rfl (by rw [hdL, hk]; simp)
      rw [hdL, hk] at h3
      simpa using h3
    simp [List.dropWhile_cons, hc]

theorem jsTrimChars_idem (cs : List Char) :
    jsTrimChars (jsTrimChars cs) = jsTrimChars cs := by
  unfold jsTrimChars
  rw [dropWhile_trimRight (dropWhile_dropWhile cs), List.reverse_reverse,
    dropWhile_dropWhile]

theorem jsTrim_idem (s : String) : jsTrim (jsTrim s) = jsTrim s := by
  simp [jsTrim, jsTrimChars_idem]

/-! ## `mapSet` / `mapGet` -/

theorem mapGet_mapSet (m : List (String × String)) (k v k' : String) :
    mapGet (mapSet m k v) k' = if k' = k then some v else mapGet m k' := by
  induction m with
  | nil =>
    by_cases h : k' = k
    · subst h
      simp [mapSet, mapGet, List.find?]
    · have h2 : (k == k') = false := by
        simp only [beq_eq_false_iff_ne, ne_eq]
        exact fun hc => h hc.symm
      simp [mapSet, mapGet, List.find?, h2, h]
  | cons p rest ih =>
    rcases p with ⟨k1, v1⟩
    rw [mapSet]
    by_cases h1 : k1 = k
    · subst h1
      by_cases h : k' = k1
      · subst h
        simp [mapGet, List.find?]
      · have h2 : (k1 == k') = false := by
          simp only [beq_eq_false_iff_ne, ne_eq]
          exact fun hc => h hc.symm
        simp [mapGet, List.find?, h2, h]
    · rw [if_neg h1]
      by_cases h : k' = k1
      · subst h
        have hkk : ¬ (k' = k) := fun hc => h1 (hc ▸ rfl)
        simp [mapGet, List.find?, hkk]
      · have h2 : (k1 == k') = false := by
          simp only [beq_eq_false_iff_ne, ne_eq]
          exact fun hc => h hc.symm
        by_cases hkk : k' = k
        · simp only [mapGet, List.find?, h2, if_pos hkk] at ih ⊢
          simpa [mapGet, hkk] using ih
        · simp only [mapGet, List.find?, h2, if_neg hkk] at ih ⊢
          simpa [mapGet, hkk] using ih

/-! ## Reconciler characterization -/

/-- Closed form of `applyMarkdownChanges`: the updated list is exactly
the canonical comments whose key matches an extracted pair with a
different text, with that text substituted; `hasChanges` holds iff at
least one such replacement happened. -/
theorem applyMarkdownChanges_spec (cs : List ReviewComment) (m : String → Option String) :
    applyMarkdownChanges cs m =
      (cs.filterMap (fun c =>
        match m (reviewKey c) with
        | some nc => if nc ≠ c.comment then some { c with comment := nc } else none
        | none => none),
       cs.any (fun c =>
        match m (reviewKey c) with
        | some nc => decide (nc ≠ c.comment)
        | none => false)) := by
  induction cs with
  | nil => rfl
  | cons c rest ih =>
    simp only [applyMarkdownChanges, ih]
    cases hm : m (reviewKey c) with
    | none => simp [List.filterMap_cons, List.any_cons, hm]
    | some nc =>
      by_cases hne : nc = c.comment
      · simp [List.filterMap_cons, List.any_cons, hm, hne]
      · simp [List.filterMap_cons, List.any_cons, hm, hne]

/-- When every canonical comment's key looks up its own text, the
reconciler reports nothing to do. -/
theorem applyMarkdownChanges_of_self (cs : List ReviewComment) (m : String → Option String)
    (h : ∀ c ∈ cs, m (reviewKey c) = some c.comment) :
    applyMarkdownChanges cs m = ([], false) := by
  rw [applyMarkdownChanges_spec, Prod.mk.injEq]
  constructor
  · rw [List.filterMap_eq_nil_iff]
    intro c hc
    rw [h c hc]
    simp
  · rw [List.any_eq_false]
    intro c hc
    rw [h c hc]
    simp

/-- Sample inputs for the reconciler counterexample and witness. -/
def sampleRC : ReviewComment :=
  ⟨"f", 1, 1, none, none, "a", "f#L1 \"a\""⟩

/-- C3 -- counterexample.  The claim asserts that a canonical annotation
with no matching extracted pair "appears unchanged in the returned
updated list"; on the singleton store with an empty extracted map the
returned `updatedComments` is empty, so the unmatched annotation does
not appear at all. -/
theorem c3_counterexample :
    (applyMarkdownChanges [sampleRC] (fun _ => none)).1 = [] ∧
      sampleRC ∉ (applyMarkdownChanges [sampleRC] (fun _ => none)).1 := by
  constructor
  · rfl
  · intro h
    simp only [applyMarkdownChanges] at h
    simp at h

/-- C3 (amended) -- `applyMarkdownChanges` is update-only: it replaces
the text of exactly those canonical annotations whose key has a matching
extracted pair with a different text (exact string inequality) and sets
`hasChanges` iff at least one replacement happened, but the returned
`updatedComments` contains only those replaced annotations -- canonical
annotations with no matching pair (or with unchanged text) are omitted
from the returned list, not returned unchanged. -/
theorem c3_amended_update_only (cs : List ReviewComment) (m : String → Option String) :
    (applyMarkdownChanges cs m).1 =
      cs.filterMap (fun c =>
        match m (reviewKey c) with
        | some nc => if nc ≠ c.comment then some { c with comment := nc } else none
        | none => none) ∧
    (applyMarkdownChanges cs m).2 =
      cs.any (fun c =>
        match m (reviewKey c) with
        | some nc => decide (nc ≠ c.comment)
        | none => false) := by
  rw [applyMarkdownChanges_spec]
  exact ⟨rfl, rfl⟩

/-- C10 -- frame property: every element of `updatedComments` is an
input comment with only its `comment` field replaced; `filePath`,
`startLine`, `endLine`, `startColumn`, `endColumn` and `raw` are all
preserved. -/
theorem c10_frame (cs : List ReviewComment) (m : String → Option String)
    (u : ReviewComment) (hu : u ∈ (applyMarkdownChanges cs m).1) :
    ∃ c ∈ cs, u.filePath = c.filePath ∧ u.startLine = c.startLine ∧
      u.endLine = c.endLine ∧ u.startColumn = c.startColumn ∧
      u.endColumn = c.endColumn ∧ u.raw = c.raw := by
  rw [applyMarkdownChanges_spec] at hu
  simp only [List.mem_filterMap] at hu
  obtain ⟨c, hc, heq⟩ := hu
  refine ⟨c, hc, ?_⟩
  cases hm : m (reviewKey c) with
  | none => rw [hm] at heq; simp at heq
  | some nc =>
    rw [hm] at heq
    by_cases hne : nc = c.comment
    · simp [hne] at heq
    · simp only [if_pos hne, ne_eq, hne, not_false_iff, if_true,
        Option.some_inj] at heq
      subst heq
      exact ⟨rfl, rfl, rfl, rfl, rfl, rfl⟩

/-- C10 -- witness: a concrete run where the updated element keeps every
frame field of its source comment. -/
theorem c10_frame_witness :
    ∃ c ∈ [sampleRC],
      ({ sampleRC with comment := "b" } : ReviewComment).filePath = c.filePath ∧
      ({ sampleRC with comment := "b" } : ReviewComment).startLine = c.startLine ∧
      ({ sampleRC with comment := "b" } : ReviewComment).endLine = c.endLine ∧
      ({ sampleRC with comment := "b" } : ReviewComment).startColumn = c.startColumn ∧
      ({ sampleRC with comment := "b" } : ReviewComment).endColumn = c.endColumn ∧
      ({ sampleRC with comment := "b" } : ReviewComment).raw = c.raw :=
  c10_frame [sampleRC] (fun _ => some "b") { sampleRC with comment := "b" }
    (by simp [applyMarkdownChanges, sampleRC])

/-! ## Escaping as a character map -/

/-- Per-character effect of `escapeComment`'s three replacement passes. -/
def escChar (c : Char) : List Char :=
  if c = '\\' then ['\\', '\\']
  else if c = '"' then ['\\', '"']
  else if c = '\n' then ['\\', 'n']
  else [c]

theorem jsReplace1_append (p : Char) (repl A B : List Char) :
    jsReplace1 p repl (A ++ B) = jsReplace1 p repl A ++ jsReplace1 p repl B := by
  simp [jsReplace1]

theorem escapeChars_append (A B : List Char) :
    escapeChars (A ++ B) = escapeChars A ++ escapeChars B := by
  simp [escapeChars, jsReplace1_append]

theorem escapeChars_eq_flatMap (t : List Char) : escapeChars t = t.flatMap escChar := by
  induction t with
  | nil => rfl
  | cons c r ih =>
    have h1 : escapeChars (c :: r) = escapeChars [c] ++ escapeChars r := by
      rw [← escapeChars_append]
      rfl
    rw [h1, List.flatMap_cons, ih]
    congr 1
    by_cases hb : c = '\\'
    · subst hb; rfl
    · by_cases hq : c = '"'
      · subst hq; rfl
      · by_cases hn : c = '\n'
        · subst hn; rfl
        · simp [escapeChars, jsReplace1, escChar, hb, hq, hn]

/-- Occurrence of the two-character sequence `\n` (backslash then the
letter `n`) in a text. -/
def hasBslashN : List Char → Bool
  | [] => false
  | [_] => false
  | c :: d :: rest => (c = '\\' && d = 'n') || hasBslashN (d :: rest)

theorem hasBslashN_tail {c : Char} {r : List Char}
    (h : hasBslashN (c :: r) = false) : hasBslashN r = false := by
  cases r with
  | nil => rfl
  | cons d r' =>
    rw [hasBslashN] at h
    exact (Bool.or_eq_false_iff.1 h).2

theorem hasBslashN_head {c : Char} {r : List Char}
    (h : hasBslashN ('\\' :: c :: r) = false) : c ≠ 'n' := by
  rw [hasBslashN] at h
  intro hc
  subst hc
  simp at h

/-! ## `jsReplace2` step lemmas -/

theorem jsReplace2_match (a b : Char) (repl X : List Char) :
    jsReplace2 a b repl (a :: b :: X) = repl ++ jsReplace2 a b repl X := by
  rw [jsReplace2, if_pos ⟨rfl, rfl⟩]

theorem jsReplace2_cons₂ (a b : Char) (repl : List Char) {c d : Char} (X : List Char)
    (h : ¬(c = a ∧ d = b)) :
    jsReplace2 a b repl (c :: d :: X) = c :: jsReplace2 a b repl (d :: X) := by
  rw [jsReplace2, if_neg h]

theorem jsReplace2_cons_of_head (a b : Char) (repl : List Char) (c : Char) (X : List Char)
    (h : c ≠ a ∨ ∀ d X', X = d :: X' → d ≠ b) :
    jsReplace2 a b repl (c :: X) = c :: jsReplace2 a b repl X := by
  cases X with
  | nil => rfl
  | cons d X' =>
    rw [jsReplace2, if_neg]
    rintro ⟨hca, hdb⟩
    rcases h with h | h
    · exact h hca
    · exact h d X' rfl hdb

/-! ## The three unescape passes undo the three escape passes -/

/-- Image after the `\n → newline` pass. -/
def esc1 (c : Char) : List Char :=
  if c = '\\' then ['\\', '\\']
  else if c = '"' then ['\\', '"']
  else [c]

/-- Image after the `\" → "` pass. -/
def esc2 (c : Char) : List Char :=
  if c = '\\' then ['\\', '\\'] else [c]

theorem unescape_pass1 (t : List Char) (h : hasBslashN t = false) :
    jsReplace2 '\\' 'n' ['\n'] (t.flatMap escChar) = t.flatMap esc1 := by
  induction t with
  | nil => rfl
  | cons c r ih =>
    have hr := hasBslashN_tail h
    rw [List.flatMap_cons, List.flatMap_cons]
    by_cases hb : c = '\\'
    · subst hb
      have hhead : ∀ d X', r.flatMap escChar = d :: X' → d ≠ 'n' := by
        intro d X' hR
        cases r with
        | nil => simp at hR
        | cons c' r' =>
          have hc' : c' ≠ 'n' := hasBslashN_head h
          rw [List.flatMap_cons] at hR
          by_cases h1 : c' = '\\'
          · subst h1; simp [escChar] at hR; simp [← hR.1]
          · by_cases h2 : c' = '"'
            · subst h2; simp [escChar] at hR; simp [← hR.1]
            · by_cases h3 : c' = '\n'
              · subst h3; simp [escChar] at hR; simp [← hR.1]
              · simp [escChar, h1, h2, h3] at hR
                rw [← hR.1]
                exact hc'
      show jsReplace2 '\\' 'n' ['\n'] ('\\' :: '\\' :: r.flatMap escChar) = _
      rw [jsReplace2_cons₂ _ _ _ _ (by simp),
        jsReplace2_cons_of_head _ _ _ _ _ (Or.inr hhead), ih hr]
      rfl
    · by_cases hq : c = '"'
      · subst hq
        show jsReplace2 '\\' 'n' ['\n'] ('\\' :: '"' :: r.flatMap escChar) = _
        rw [jsReplace2_cons₂ _ _ _ _ (by simp),
          jsReplace2_cons_of_head _ _ _ _ _ (Or.inl (by decide)), ih hr]
        rfl
      · by_cases hn : c = '\n'
        · subst hn
          show jsReplace2 '\\' 'n' ['\n'] ('\\' :: 'n' :: r.flatMap escChar) = _
          rw [jsReplace2_match, ih hr]
          rfl
        · show jsReplace2 '\\' 'n' ['\n'] (escChar c ++ r.flatMap escChar) = _
          rw [show escChar c = [c] from by simp [escChar, hb, hq, hn]]
          rw [List.singleton_append,
            jsReplace2_cons_of_head _ _ _ _ _ (Or.inl hb), ih hr]
          rw [show esc1 c = [c] from by simp [esc1, hb, hq]]
          rfl

theorem unescape_pass2 (t : List Char) :
    jsReplace2 '\\' '"' ['"'] (t.flatMap esc1) = t.flatMap esc2 := by
  induction t with
  | nil => rfl
  | cons c r ih =>
    rw [List.flatMap_cons, List.flatMap_cons]
    by_cases hb : c = '\\'
    · subst hb
      have hhead : ∀ d X', r.flatMap esc1 = d :: X' → d ≠ '"' := by
        intro d X' hR
        cases r with
        | nil => simp at hR
        | cons c' r' =>
          rw [List.flatMap_cons] at hR
          by_cases h1 : c' = '\\'
          · subst h1; simp [esc1] at hR; simp [← hR.1]
          · by_cases h2 : c' = '"'
            · subst h2; simp [esc1] at hR; simp [← hR.1]
            · simp [esc1, h1, h2] at hR
              rw [← hR.1]
              exact h2
      show jsReplace2 '\\' '"' ['"'] ('\\' :: '\\' :: r.flatMap esc1) = _
      rw [jsReplace2_cons₂ _ _ _ _ (by simp),
        jsReplace2_cons_of_head _ _ _ _ _ (Or.inr hhead), ih]
      rfl
    · by_cases hq : c = '"'
      · subst hq
        show jsReplace2 '\\' '"' ['"'] ('\\' :: '"' :: r.flatMap esc1) = _
        rw [jsReplace2_match, ih]
        rfl
      · show jsReplace2 '\\' '"' ['"'] (esc1 c ++ r.flatMap esc1) = _
        rw [show esc1 c = [c] from by simp [esc1, hb, hq]]
        rw [List.singleton_append,
          jsReplace2_cons_of_head _ _ _ _ _ (Or.inl hb), ih]
        rw [show esc2 c = [c] from by simp [esc2, hb]]
        rfl

theorem unescape_pass3 (t : List Char) :
    jsReplace2 '\\' '\\' ['\\'] (t.flatMap esc2) = t := by
  induction t with
  | nil => rfl
  | cons c r ih =>
    rw [List.flatMap_cons]
    by_cases hb : c = '\\'
    · subst hb
      show jsReplace2 '\\' '\\' ['\\'] ('\\' :: '\\' :: r.flatMap esc2) = _
      rw [jsReplace2_match, ih]
      rfl
    · show jsReplace2 '\\' '\\' ['\\'] (esc2 c ++ r.flatMap esc2) = _
      rw [show esc2 c = [c] from by simp [esc2, hb]]
      rw [List.singleton_append,
        jsReplace2_cons_of_head _ _ _ _ _ (Or.inl hb), ih]

/-- The decoder's three-pass unescape undoes the encoder's three-pass
escape exactly when the text has no backslash-`n` two-character
sequence. -/
theorem unescape_escape (t : List Char) (h : hasBslashN t = false) :
    unescapeChars (escapeChars t) = t := by
  rw [escapeChars_eq_flatMap, unescapeChars, unescape_pass1 t h,
    unescape_pass2 t, unescape_pass3 t]

/-! ## `scanBody` on well-formed and on mis-split inputs -/

theorem scanBody_cons (c : Char) (rest : List Char) :
    scanBody (c :: rest) =
      if c = '"' then (if rest.all jsWsChar then some [] else none)
      else if c = '\\' then
        (match rest with
         | [] => none
         | d :: rest' =>
           if isLineTerm d then none
           else (scanBody rest').map (fun b => '\\' :: d :: b))
      else (scanBody rest).map (fun b => c :: b) := by
  rw [scanBody.eq_def]

theorem scanBody_cons_quote (rest : List Char) :
    scanBody ('"' :: rest) = if rest.all jsWsChar then some [] else none := by
  rw [scanBody_cons, if_pos rfl]

theorem scanBody_cons_bslash (d : Char) (rest : List Char) (hd : isLineTerm d = false) :
    scanBody ('\\' :: d :: rest) = (scanBody rest).map (fun b => '\\' :: d :: b) := by
  rw [scanBody_cons, if_neg (by decide), if_pos rfl]
  show (if isLineTerm d = true then none else _) = _
  rw [hd]
  simp

theorem scanBody_cons_other {c : Char} (rest : List Char) (h1 : c ≠ '"')
    (h2 : c ≠ '\\') : scanBody (c :: rest) = (scanBody rest).map (fun b => c :: b) := by
  rw [scanBody_cons, if_neg h1, if_neg h2]

/-- The body scanner accepts exactly the escaped text followed by the
closing quote. -/
theorem scanBody_escape (t : List Char) :
    scanBody (t.flatMap escChar ++ ['"']) = some (t.flatMap escChar) := by
  induction t with
  | nil => rfl
  | cons c r ih =>
    rw [List.flatMap_cons]
    by_cases hb : c = '\\'
    · subst hb
      show scanBody ('\\' :: '\\' :: (r.flatMap escChar ++ ['"'])) = _
      rw [scanBody_cons_bslash _ _ (by decide), ih]
      rfl
    · by_cases hq : c = '"'
      · subst hq
        show scanBody ('\\' :: '"' :: (r.flatMap escChar ++ ['"'])) = _
        rw [scanBody_cons_bslash _ _ (by decide), ih]
        rfl
      · by_cases hn : c = '\n'
        · subst hn
          show scanBody ('\\' :: 'n' :: (r.flatMap escChar ++ ['"'])) = _
          rw [scanBody_cons_bslash _ _ (by decide), ih]
          rfl
        · rw [show escChar c = [c] from by simp [escChar, hb, hq, hn]]
          show scanBody (c :: (r.flatMap escChar ++ ['"'])) = _
          rw [scanBody_cons_other _ hq hb, ih]
          rfl

/-- A scan that starts left of the true opening quote dies: every
stopping quote is followed by the non-whitespace final quote, and the
true opening quote (preceded by a space, hence never absorbed into an
escape token) cannot be crossed. -/
theorem scanBody_mis_split (T : List Char) (hw : ∃ c ∈ T, jsWsChar c = false) :
    ∀ n (Z : List Char), Z.length ≤ n → Z.getLast? ≠ some '\\' →
      scanBody (Z ++ '"' :: T) = none := by
  have base : scanBody ('"' :: T) = none := by
    rw [scanBody_cons_quote]
    rcases hw with ⟨c, hc, hcw⟩
    rw [if_neg]
    intro hall
    rw [List.all_eq_true] at hall
    rw [hall c hc] at hcw
    simp at hcw
  intro n
  induction n with
  | zero =>
    intro Z hlen _
    have hz : Z = [] := List.length_eq_zero.1 (Nat.le_zero.1 hlen)
    subst hz
    simpa using base
  | succ n ih =>
    intro Z hlen hZ
    cases Z with
    | nil => simpa using base
    | cons z Z' =>
      by_cases hq : z = '"'
      · subst hq
        rw [List.cons_append, scanBody_cons_quote, if_neg]
        intro hall
        rw [List.all_eq_true] at hall
        have h2 := hall '"' (List.mem_append.2 (Or.inr (List.mem_cons_self _ _)))
        exact absurd h2 (by decide)
      · by_cases hbs : z = '\\'
        · subst hbs
          cases Z' with
          | nil => exact absurd rfl hZ
          | cons d Z'' =>
            by_cases hterm : isLineTerm d = true
            · rw [List.cons_append, List.cons_append, scanBody_cons,
                if_neg (by decide), if_pos rfl]
              show (if isLineTerm d = true then none else _) = _
              rw [hterm]
              simp
            · rw [List.cons_append, List.cons_append,
                scanBody_cons_bslash d _ (by simpa using hterm)]
              have hrec : scanBody (Z'' ++ '"' :: T) = none := by
                apply ih Z'' (by simp at hlen; omega)
                cases Z'' with
                | nil => simp
                | cons w W =>
                  rw [show ('\\' :: d :: w :: W).getLast? = (w :: W).getLast? from by
                    rw [List.getLast?_cons_cons, List.getLast?_cons_cons]] at hZ
                  exact hZ
              rw [hrec]
              rfl
        · rw [List.cons_append, scanBody_cons_other _ hq hbs]
          have hrec : scanBody (Z' ++ '"' :: T) = none := by
            apply ih Z' (by simp at hlen; omega)
            cases Z' with
            | nil => simp
            | cons w W =>
              rw [show (z :: w :: W).getLast? = (w :: W).getLast? from
                List.getLast?_cons_cons] at hZ
              exact hZ
          rw [hrec]
          rfl

/-! ## `matchTail` on the encoded tail -/

theorem takeWhile_cons_false {p : Char → Bool} {c : Char} (r : List Char)
    (h : p c = false) : (c :: r).takeWhile p = [] := by
  simp [List.takeWhile_cons, h]

theorem repr_all_digit (n : Nat) : ∀ c ∈ (Nat.repr n).data, c.isDigit = true := by
  rw [repr_data]
  exact natDigs_all_digit n

theorem repr_ne_nil (n : Nat) : (Nat.repr n).data ≠ [] := by
  rw [repr_data]
  exact natDigs_ne_nil n

theorem matchTailCont_cons (spec : List Char) (c : Char) (r3 : List Char) :
    (match c :: r3 with
      | c :: r3 => if c = '"' then (scanBody r3).map (fun b => (spec, b)) else none
      | [] => (none : Option (List Char × List Char))) =
      if c = '"' then (scanBody r3).map (fun b => (spec, b)) else none := rfl

/-- `matchTailCont` on `" \"<escaped>\""`. -/
theorem matchTailCont_encode (spec t : List Char) :
    matchTailCont spec (' ' :: '"' :: (t.flatMap escChar ++ ['"'])) =
      some (spec, t.flatMap escChar) := by
  have hws : (' ' :: '"' :: (t.flatMap escChar ++ ['"'])).takeWhile jsWsChar = [' '] := by
    rw [List.takeWhile_cons, if_pos (by decide), takeWhile_cons_false _ (by decide)]
  unfold matchTailCont
  rw [hws, if_neg (by simp)]
  show (match (' ' :: '"' :: (t.flatMap escChar ++ ['"'])).drop 1 with
    | c :: r3 => if c = '"' then (scanBody r3).map (fun b => (spec, b)) else none
    | [] => none) = _
  rw [List.drop_one, List.tail_cons, matchTailCont_cons, if_pos rfl, scanBody_escape]
  rfl

/-- `matchTail` on a single-line spec followed by the quoted body. -/
theorem matchTail_encode_single (n : Nat) (t : List Char) :
    matchTail ((Nat.repr n).data ++ (' ' :: '"' :: (t.flatMap escChar ++ ['"']))) =
      some ((Nat.repr n).data, t.flatMap escChar) := by
  have htw : (((Nat.repr n).data ++ (' ' :: '"' :: (t.flatMap escChar ++ ['"'])))).takeWhile
      Char.isDigit = (Nat.repr n).data := by
    rw [takeWhile_append_all (repr_all_digit n), takeWhile_cons_false _ (by decide),
      List.append_nil]
  unfold matchTail
  rw [htw, if_neg (repr_ne_nil n), List.drop_left]
  show matchTailCont (Nat.repr n).data
      (' ' :: '"' :: (t.flatMap escChar ++ ['"'])) = _
  exact matchTailCont_encode _ t

/-- `matchTail` on a range spec followed by the quoted body. -/
theorem matchTail_encode_range (n m : Nat) (t : List Char) :
    matchTail ((Nat.repr n).data ++
        ('-' :: ((Nat.repr m).data ++ (' ' :: '"' :: (t.flatMap escChar ++ ['"']))))) =
      some ((Nat.repr n).data ++ '-' :: (Nat.repr m).data, t.flatMap escChar) := by
  have htw : (((Nat.repr n).data ++
      ('-' :: ((Nat.repr m).data ++
        (' ' :: '"' :: (t.flatMap escChar ++ ['"'])))))).takeWhile Char.isDigit =
      (Nat.repr n).data := by
    rw [takeWhile_append_all (repr_all_digit n), takeWhile_cons_false _ (by decide),
      List.append_nil]
  unfold matchTail
  rw [htw, if_neg (repr_ne_nil n), List.drop_left]
  show (if ('-' : Char) = '-' then
      (let d2 := (((Nat.repr m).data ++
          (' ' :: '"' :: (t.flatMap escChar ++ ['"'])))).takeWhile Char.isDigit
       if d2 = [] then none
       else matchTailCont ((Nat.repr n).data ++ '-' :: d2)
         ((((Nat.repr m).data ++
           (' ' :: '"' :: (t.flatMap escChar ++ ['"'])))).drop d2.length))
    else matchTailCont (Nat.repr n).data
      ('-' :: ((Nat.repr m).data ++ (' ' :: '"' :: (t.flatMap escChar ++ ['"']))))) = _
  rw [if_pos rfl]
  have htw2 : (((Nat.repr m).data ++
      (' ' :: '"' :: (t.flatMap escChar ++ ['"'])))).takeWhile Char.isDigit =
      (Nat.repr m).data := by
    rw [takeWhile_append_all (repr_all_digit m), takeWhile_cons_false _ (by decide),
      List.append_nil]
  simp only [htw2]
  rw [if_neg (repr_ne_nil m), List.drop_left]
  exact matchTailCont_encode _ t

/-! ## `matchTail` fails at every split left of the true file path end -/

theorem takeWhile_append_notHead {p : Char → Bool} {c : Char} (hc : p c = false)
    (A X : List Char) : (A ++ c :: X).takeWhile p = A.takeWhile p := by
  induction A with
  | nil => simp [takeWhile_cons_false _ hc]
  | cons a A' ih =>
    by_cases h : p a
    · simp [List.takeWhile_cons, h, ih]
    · simp [List.takeWhile_cons, h]

theorem dropWhile_append_notHead {p : Char → Bool} {c : Char} (hc : p c = false)
    (A X : List Char) : (A ++ c :: X).dropWhile p = A.dropWhile p ++ c :: X := by
  induction A with
  | nil => simp [List.dropWhile_cons, hc]
  | cons a A' ih =>
    by_cases h : p a
    · simp [List.dropWhile_cons, h, ih]
    · simp [List.dropWhile_cons, h]

theorem drop_takeWhile_append (p : Char → Bool) (A B : List Char) :
    (A ++ B).drop (A.takeWhile p).length = A.dropWhile p ++ B := by
  conv_lhs =>
    rw [show A ++ B = A.takeWhile p ++ (A.dropWhile p ++ B) from by
      rw [← List.append_assoc, List.takeWhile_append_dropWhile]]
  exact List.drop_left _ _

theorem matchTailCont_mis_split (s q spec esc : List Char) :
    matchTailCont s (q ++ ('#' :: 'L' :: (spec ++ (' ' :: '"' :: (esc ++ ['"']))))) =
      none := by
  unfold matchTailCont
  rw [takeWhile_append_notHead (by decide)]
  by_cases hq : q.takeWhile jsWsChar = []
  · rw [hq, if_pos rfl]
  · rw [if_neg hq, drop_takeWhile_append]
    rcases hdq : q.dropWhile jsWsChar with _ | ⟨c, q4⟩
    · show (match ('#' :: 'L' :: (spec ++ (' ' :: '"' :: (esc ++ ['"'])))) with
        | c :: r3 => if c = '"' then (scanBody r3).map (fun b => (s, b)) else none
        | [] => none) = none
      simp
    · show (match (c :: (q4 ++ ('#' :: 'L' :: (spec ++ (' ' :: '"' :: (esc ++ ['"'])))))) with
        | c :: r3 => if c = '"' then (scanBody r3).map (fun b => (s, b)) else none
        | [] => none) = none
      by_cases hc : c = '"'
      · subst hc
        rw [matchTailCont_cons, if_pos rfl]
        have harr : q4 ++ ('#' :: 'L' :: (spec ++ (' ' :: '"' :: (esc ++ ['"'])))) =
            (q4 ++ ('#' :: 'L' :: (spec ++ [' ']))) ++ ('"' :: (esc ++ ['"'])) := by
          simp
        rw [harr, scanBody_mis_split (esc ++ ['"'])
          ⟨'"', List.mem_append.2 (Or.inr (List.mem_cons_self _ _)), by decide⟩
          (q4 ++ ('#' :: 'L' :: (spec ++ [' ']))).length _ (le_refl _) ?_]
        · rfl
        · rw [show q4 ++ ('#' :: 'L' :: (spec ++ [' '])) =
            (q4 ++ ('#' :: 'L' :: spec)) ++ [' '] from by simp]
          rw [List.getLast?_concat]
          simp
      · rw [matchTailCont_cons, if_neg hc]

theorem matchTail_mis_split (p2 spec esc : List Char) :
    matchTail (p2 ++ ('#' :: 'L' :: (spec ++ (' ' :: '"' :: (esc ++ ['"']))))) = none := by
  unfold matchTail
  rw [takeWhile_append_notHead (by decide)]
  by_cases hd1 : p2.takeWhile Char.isDigit = []
  · rw [hd1, if_pos rfl]
  · rw [if_neg hd1, drop_takeWhile_append]
    rcases hdq : p2.dropWhile Char.isDigit with _ | ⟨c, p3⟩
    · show (match ('#' :: 'L' :: (spec ++ (' ' :: '"' :: (esc ++ ['"'])))) with
        | c :: t =>
          if c = '-' then
            let d2 := t.takeWhile Char.isDigit
            if d2 = [] then none
            else matchTailCont (p2.takeWhile Char.isDigit ++ '-' :: d2) (t.drop d2.length)
          else matchTailCont (p2.takeWhile Char.isDigit) (c :: t)
        | [] => matchTailCont (p2.takeWhile Char.isDigit) []) = none
      show (if ('#' : Char) = '-' then _ else
        matchTailCont (p2.takeWhile Char.isDigit)
          ('#' :: ('L' :: (spec ++ (' ' :: '"' :: (esc ++ ['"'])))))) = none
      rw [if_neg (by decide)]
      exact matchTailCont_mis_split _ [] spec esc
    · show (if c = '-' then
          let d2 := (p3 ++ ('#' :: 'L' :: (spec ++
            (' ' :: '"' :: (esc ++ ['"']))))).takeWhile Char.isDigit
          if d2 = [] then none
          else matchTailCont (p2.takeWhile Char.isDigit ++ '-' :: d2)
            ((p3 ++ ('#' :: 'L' :: (spec ++
              (' ' :: '"' :: (esc ++ ['"']))))).drop d2.length)
        else matchTailCont (p2.takeWhile Char.isDigit)
          (c :: (p3 ++ ('#' :: 'L' :: (spec ++ (' ' :: '"' :: (esc ++ ['"'])))))))
        = none
      by_cases hc : c = '-'
      · subst hc
        rw [if_pos rfl]
        show (if (p3 ++ ('#' :: 'L' :: (spec ++
            (' ' :: '"' :: (esc ++ ['"']))))).takeWhile Char.isDigit = [] then none
          else _) = none
        rw [takeWhile_append_notHead (by decide)]
        by_cases hd2 : p3.takeWhile Char.isDigit = []
        · rw [hd2, if_pos rfl]
        · rw [if_neg hd2]
          show matchTailCont _ ((p3 ++ ('#' :: 'L' :: (spec ++
            (' ' :: '"' :: (esc ++ ['"']))))).drop
              (p3.takeWhile Char.isDigit).length) = none
          rw [drop_takeWhile_append]
          exact matchTailCont_mis_split _ _ spec esc
      · rw [if_neg hc]
        exact matchTailCont_mis_split _ (c :: p3) spec esc

/-! ## The lazy file-path group recovers exactly the encoded path -/

theorem noteMatchGo_cons (acc : List Char) (c : Char) (r : List Char) :
    noteMatchGo acc (c :: r) =
      ((if c = '#' then
        match r with
        | d :: r2 =>
          if d = 'L' then
            if acc.isEmpty then none
            else (matchTail r2).map (fun p => (acc, p.1, p.2))
          else none
        | [] => none
      else none)
      <|>
      (if isLineTerm c then none else noteMatchGo (acc ++ [c]) r)) := by
  rw [noteMatchGo.eq_def]

theorem noteMatchGo_encode (W : List Char) (res : List Char × List Char)
    (hsucc : matchTail W = some res)
    (hfail : ∀ mid, matchTail (mid ++ ('#' :: 'L' :: W)) = none) :
    ∀ (post pre : List Char), (∀ c ∈ post, isLineTerm c = false) →
      pre ++ post ≠ [] →
      noteMatchGo pre (post ++ ('#' :: 'L' :: W)) =
        some (pre ++ post, res.1, res.2) := by
  intro post
  induction post with
  | nil =>
    intro pre _ hne
    rw [List.append_nil] at hne ⊢
    rw [List.nil_append, noteMatchGo_cons, if_pos rfl]
    show ((if ('L' : Char) = 'L' then
        if pre.isEmpty then none
        else (matchTail W).map (fun p => (pre, p.1, p.2))
      else none) <|> _) = _
    rw [if_pos rfl, if_neg (by simpa using hne), hsucc]
    rfl
  | cons c post' ih =>
    intro pre hterm hne
    rw [List.cons_append, noteMatchGo_cons]
    have hfirst : (if c = '#' then
        match post' ++ ('#' :: 'L' :: W) with
        | d :: r2 =>
          if d = 'L' then
            if pre.isEmpty then none
            else (matchTail r2).map (fun p => (pre, p.1, p.2))
          else none
        | [] => none
      else none) = none := by
      by_cases hc : c = '#'
      · rw [if_pos hc]
        cases post' with
        | nil =>
          show (if ('#' : Char) = 'L' then _ else none) = none
          rw [if_neg (by decide)]
        | cons d p'' =>
          show (if d = 'L' then
              if pre.isEmpty then none
              else (matchTail (p'' ++ ('#' :: 'L' :: W))).map
                (fun p => (pre, p.1, p.2))
            else none) = none
          by_cases hd : d = 'L'
          · rw [if_pos hd, hfail p'']
            by_cases hp : pre.isEmpty <;> simp [hp]
          · rw [if_neg hd]
      · rw [if_neg hc]
    rw [hfirst, Option.none_orElse,
      if_neg (by simpa using hterm c (List.mem_cons_self _ _))]
    have := ih (pre ++ [c])
      (fun d hd => hterm d (List.mem_cons_of_mem c hd))
      (by simp)
    rw [this]
    simp

/-! ## `splitDash` on the captured specs -/

theorem splitDash_no_dash {cs : List Char} (h : '-' ∉ cs) : splitDash cs = [cs] := by
  induction cs with
  | nil => rfl
  | cons c r ih =>
    have hc : c ≠ '-' := fun hc => h (hc ▸ List.mem_cons_self c r)
    rw [splitDash, if_neg hc, ih (fun hr => h (List.mem_cons_of_mem c hr))]
    rfl

theorem splitDash_append {A : List Char} (h : '-' ∉ A) (B : List Char) :
    splitDash (A ++ '-' :: B) = A :: splitDash B := by
  induction A with
  | nil => simp [splitDash]
  | cons c A' ih =>
    have hc : c ≠ '-' := fun hc => h (hc ▸ List.mem_cons_self c A')
    rw [List.cons_append, splitDash, if_neg hc,
      ih (fun hr => h (List.mem_cons_of_mem c hr))]
    rfl

theorem repr_not_mem_dash (n : Nat) : '-' ∉ (Nat.repr n).data := by
  intro h
  have := repr_all_digit n '-' h
  exact absurd this (by decide)

theorem repr_contains_dash_false (n : Nat) :
    ((Nat.repr n).data).contains '-' = false := by
  rw [← Bool.not_eq_true, List.contains_eq_any_beq, List.any_eq_true]
  rintro ⟨c, hc, hbeq⟩
  rw [beq_iff_eq] at hbeq
  subst hbeq
  exact repr_not_mem_dash n hc

/-! ## The record codec round trip -/

theorem string_mk_data (s : String) : String.mk s.data = s := rfl

/-- Character-level shape of the encoded store line. -/
theorem encodeNoteLine_data (fp : String) (sl el : Nat) (t : String) :
    (encodeNoteLine fp sl el none none t).data =
      fp.data ++ ('#' :: 'L' ::
        ((formatLineSpec sl el none none).data ++
          (' ' :: '"' :: (escapeChars t.data ++ ['"'])))) := by
  show (fp ++ "#L" ++ formatLineSpec sl el none none ++ " \"" ++
      escapeComment t ++ "\"").data = _
  simp only [String.data_append]
  show fp.data ++ ['#', 'L'] ++ (formatLineSpec sl el none none).data ++
      [' ', '"'] ++ (escapeChars t.data) ++ ['"'] = _
  simp

theorem formatLineSpec_eq_data (sl : Nat) :
    (formatLineSpec sl sl none none).data = (Nat.repr sl).data := by
  unfold formatLineSpec
  rw [if_pos rfl]

theorem formatLineSpec_ne_data {sl el : Nat} (h : sl ≠ el) :
    (formatLineSpec sl el none none).data =
      (Nat.repr sl).data ++ '-' :: (Nat.repr el).data := by
  unfold formatLineSpec
  rw [if_neg h]
  show (Nat.repr sl ++ "-" ++ Nat.repr el).data = _
  simp only [String.data_append]
  simp

/-- Decoding an encoded store line recovers the file path, the line
numbers and (when the text has no backslash-`n` sequence) the text. -/
theorem parseNote_encode (fp : String) (sl el : Nat) (t : String)
    (hfp : fp ≠ "") (hterm : ∀ c ∈ fp.data, isLineTerm c = false)
    (hbn : hasBslashN t.data = false) :
    parseNote (encodeNoteLine fp sl el none none t) =
      some ⟨fp, sl, el, t, encodeNoteLine fp sl el none none t⟩ := by
  have hfpd : fp.data ≠ [] := by
    intro h
    apply hfp
    have := congrArg String.mk h
    rw [string_mk_data] at this
    exact this
  have hesc : escapeChars t.data = t.data.flatMap escChar := escapeChars_eq_flatMap t.data
  by_cases hsl : sl = el
  · subst hsl
    have hW : noteMatchGo [] ((encodeNoteLine fp sl sl none none t).data) =
        some (fp.data, (Nat.repr sl).data, t.data.flatMap escChar) := by
      rw [encodeNoteLine_data, formatLineSpec_eq_data, hesc]
      exact noteMatchGo_encode _ ((Nat.repr sl).data, t.data.flatMap escChar)
        (matchTail_encode_single sl t.data)
        (fun mid => matchTail_mis_split mid ((Nat.repr sl).data) (t.data.flatMap escChar))
        fp.data [] hterm (by simpa using hfpd)
    unfold parseNote noteLineMatch
    rw [hW]
    rw [Option.map_some']
    have hcont : ((Nat.repr sl).data).contains '-' = false := repr_contains_dash_false sl
    simp only [hcont, Bool.false_eq_true, if_false]
    rw [← hesc, unescape_escape t.data hbn, digitsToNat_repr, string_mk_data,
      string_mk_data]
  · have hW : noteMatchGo [] ((encodeNoteLine fp sl el none none t).data) =
        some (fp.data, (Nat.repr sl).data ++ '-' :: (Nat.repr el).data,
          t.data.flatMap escChar) := by
      rw [encodeNoteLine_data, formatLineSpec_ne_data hsl, hesc]
      have harr : ((Nat.repr sl).data ++ '-' :: (Nat.repr el).data) ++
          (' ' :: '"' :: (t.data.flatMap escChar ++ ['"'])) =
          (Nat.repr sl).data ++ ('-' :: ((Nat.repr el).data ++
            (' ' :: '"' :: (t.data.flatMap escChar ++ ['"'])))) := by
        simp
      exact noteMatchGo_encode _
        ((Nat.repr sl).data ++ '-' :: (Nat.repr el).data, t.data.flatMap escChar)
        (by rw [harr]; exact matchTail_encode_range sl el t.data)
        (fun mid => matchTail_mis_split mid
          ((Nat.repr sl).data ++ '-' :: (Nat.repr el).data) (t.data.flatMap escChar))
        fp.data [] hterm (by simpa using hfpd)
    unfold parseNote noteLineMatch
    rw [hW]
    rw [Option.map_some']
    have hcont : (((Nat.repr sl).data ++ '-' :: (Nat.repr el).data)).contains '-' =
        true := by
      rw [List.contains_eq_any_beq, List.any_eq_true]
      exact ⟨'-', List.mem_append.2 (Or.inr (List.mem_cons_self _ _)), by simp⟩
    simp only [hcont, if_true]
    rw [splitDash_append (repr_not_mem_dash sl), splitDash_no_dash (repr_not_mem_dash el)]
    simp only [List.headD_cons, List.tail_cons]
    rw [← hesc, unescape_escape t.data hbn, digitsToNat_repr, digitsToNat_repr,
      string_mk_data, string_mk_data]

/-! ## Claims about the record codec: C1, C5, C6 -/

/-- C1 -- counterexample.  The two-character text `\n` (backslash then
the letter `n`) contains no control characters, yet decoding its encoding
yields backslash-newline: the decoder's first unescape pass mistakes the
doubled backslash followed by `n` for a newline escape. -/
theorem c1_roundtrip_counterexample :
    (parseNote (encodeNoteLine "f" 1 1 none none "\\n")).map Note.comment =
      some "\\\n" ∧ ("\\\n" : String) ≠ "\\n" := by
  exact ⟨rfl, by decide⟩

/-- C1 (amended) -- codec round trip: for every annotation whose file
path is nonempty and free of line terminators and whose text contains no
backslash-`n` two-character sequence, decoding the encoded store line
recovers the file path, both line numbers and the exact text. -/
theorem c1_roundtrip (fp : String) (sl el : Nat) (t : String)
    (hfp : fp ≠ "") (hterm : ∀ c ∈ fp.data, isLineTerm c = false)
    (hbn : hasBslashN t.data = false) :
    parseNote (encodeNoteLine fp sl el none none t) =
      some ⟨fp, sl, el, t, encodeNoteLine fp sl el none none t⟩ :=
  parseNote_encode fp sl el t hfp hterm hbn

/-- C1 -- witness: a concrete annotation with a quote, a backslash and a
newline in its text survives the round trip. -/
theorem c1_roundtrip_witness :
    parseNote (encodeNoteLine "a/b.ts" 2 5 none none "x\"y\\z\nw") =
      some ⟨"a/b.ts", 2, 5, "x\"y\\z\nw",
        encodeNoteLine "a/b.ts" 2 5 none none "x\"y\\z\nw"⟩ :=
  c1_roundtrip "a/b.ts" 2 5 "x\"y\\z\nw" (by decide) (by decide) (by decide)

/-- C5 -- counterexample.  The claim says `decodeLine` on
`f#L20-10 "x"` reports a start>end validation error and produces no
annotation; in fact it produces one. -/
theorem c5_counterexample : (parseNote "f#L20-10 \"x\"").isSome = true := rfl

/-- C5 (amended) -- `parseNote` performs no range validation at all: on
`f#L20-10 "x"` it silently returns the annotation with `startLine = 20`
and `endLine = 10`, bounds unswapped, no error reported. -/
theorem c5_amended_no_range_validation :
    parseNote "f#L20-10 \"x\"" =
      some ⟨"f", 20, 10, "x", "f#L20-10 \"x\""⟩ := rfl

/-- C6 -- counterexample.  The claim says a line spec `0` on a
non-sentinel path is rejected with a "must be positive" error and no
annotation; in fact `parseNote` accepts `f#L0 "x"`. -/
theorem c6_counterexample : (parseNote "f#L0 \"x\"").isSome = true := rfl

/-- C6 (amended) -- `parseNote` performs no positivity validation: a
line spec `0` is accepted for every file path (not only the sentinel
`/`), producing the annotation with `startLine = endLine = 0`; negative
numbers simply fail the grammar, and no "must be positive" reason exists
in the record codec. -/
theorem c6_amended_zero_accepted (fp : String) (t : String)
    (hfp : fp ≠ "") (hterm : ∀ c ∈ fp.data, isLineTerm c = false)
    (hbn : hasBslashN t.data = false) :
    parseNote (encodeNoteLine fp 0 0 none none t) =
      some ⟨fp, 0, 0, t, encodeNoteLine fp 0 0 none none t⟩ :=
  parseNote_encode fp 0 0 t hfp hterm hbn

/-- C6 -- witness: the spec-0 acceptance at the concrete non-sentinel
path `f`. -/
theorem c6_zero_witness :
    parseNote (encodeNoteLine "f" 0 0 none none "x") =
      some ⟨"f", 0, 0, "x", encodeNoteLine "f" 0 0 none none "x"⟩ :=
  c6_amended_zero_accepted "f" "x" (by decide) (by decide) (by decide)

/-! ## Batch decoding: C7 -/

theorem noteMatchGo_some_hash :
    ∀ (cs acc : List Char) (r : List Char × List Char × List Char),
      noteMatchGo acc cs = some r → '#' ∈ cs := by
  intro cs
  induction cs with
  | nil =>
    intro acc r h
    simp [noteMatchGo] at h
  | cons c rest ih =>
    intro acc r h
    rw [noteMatchGo_cons] at h
    by_cases hc : c = '#'
    · exact hc ▸ List.mem_cons_self _ _
    · rw [if_neg hc, Option.none_orElse] at h
      by_cases ht : isLineTerm c = true
      · rw [ht] at h
        simp at h
      · rw [show isLineTerm c = false by simpa using ht] at h
        simp only [Bool.false_eq_true, if_false] at h
        exact List.mem_cons_of_mem c (ih _ r h)

theorem jsTrimChars_eq_nil {cs : List Char} (h : jsTrimChars cs = []) :
    ∀ c ∈ cs, jsWsChar c = true := by
  unfold jsTrimChars at h
  rw [List.reverse_eq_nil_iff] at h
  rw [List.dropWhile_eq_nil_iff] at h
  intro c hc
  have he : cs.takeWhile jsWsChar ++ cs.dropWhile jsWsChar = cs :=
    List.takeWhile_append_dropWhile jsWsChar cs
  rw [← he] at hc
  rcases List.mem_append.1 hc with h1 | h1
  · exact List.mem_takeWhile_imp h1
  · exact h c (List.mem_reverse.2 h1)

theorem parseNote_some_trim {l : String} {n : Note} (h : parseNote l = some n) :
    jsTrim l ≠ "" := by
  intro htrim
  unfold parseNote noteLineMatch at h
  rcases Option.map_eq_some'.1 h with ⟨m, hm, _⟩
  have hmem := noteMatchGo_some_hash l.data [] m hm
  have hws : jsWsChar '#' = true := by
    apply jsTrimChars_eq_nil _ _ hmem
    have := congrArg String.data htrim
    exact this
  exact absurd hws (by decide)

theorem parseNoteLines_cons (l : String) (rest : List String) (idx : Nat) :
    parseNoteLines (l :: rest) idx =
      if jsTrim l = "" then parseNoteLines rest (idx + 1)
      else
        match parseNote l with
        | some n => ((n :: (parseNoteLines rest (idx + 1)).1),
            (parseNoteLines rest (idx + 1)).2)
        | none => ((parseNoteLines rest (idx + 1)).1,
            ({ line := idx + 1, content := l, error := "Invalid format" } :
              ParseError) :: (parseNoteLines rest (idx + 1)).2) := by
  rcases hp : parseNoteLines rest (idx + 1) with ⟨notes, errors⟩
  rw [parseNoteLines, hp]

theorem parseNoteLines_append (xs ys : List String) (idx : Nat) :
    parseNoteLines (xs ++ ys) idx =
      ((parseNoteLines xs idx).1 ++ (parseNoteLines ys (idx + xs.length)).1,
       (parseNoteLines xs idx).2 ++ (parseNoteLines ys (idx + xs.length)).2) := by
  induction xs generalizing idx with
  | nil =>
    rw [List.nil_append, show parseNoteLines [] idx = ([], []) from rfl]
    simp
  | cons l xs' ih =>
    rw [List.cons_append, parseNoteLines_cons l (xs' ++ ys) idx,
      parseNoteLines_cons l xs' idx, ih (idx + 1)]
    have hidx : idx + 1 + xs'.length = idx + (l :: xs').length := by
      simp only [List.length_cons]
      omega
    rw [← hidx]
    by_cases h : jsTrim l = ""
    · rw [if_pos h, if_pos h]
    · rw [if_neg h, if_neg h]
      cases parseNote l <;> simp

theorem parseNoteLines_all_some (ls : List String) (idx : Nat)
    (h : ∀ l ∈ ls, (parseNote l).isSome = true) :
    (parseNoteLines ls idx).1.length = ls.length ∧ (parseNoteLines ls idx).2 = [] := by
  induction ls generalizing idx with
  | nil => exact ⟨rfl, rfl⟩
  | cons l rest ih =>
    rcases Option.isSome_iff_exists.1 (h l (List.mem_cons_self _ _)) with ⟨n, hn⟩
    have htrim := parseNote_some_trim hn
    rw [parseNoteLines_cons, if_neg htrim, hn]
    have := ih (idx + 1) (fun l' hl' => h l' (List.mem_cons_of_mem l hl'))
    exact ⟨by simp [this.1], this.2⟩

theorem parseNoteLines_all_blank (ls : List String) (idx : Nat)
    (h : ∀ l ∈ ls, jsTrim l = "") : parseNoteLines ls idx = ([], []) := by
  induction ls generalizing idx with
  | nil => rfl
  | cons l rest ih =>
    rw [parseNoteLines_cons, if_pos (h l (List.mem_cons_self _ _))]
    exact ih (idx + 1) (fun l' hl' => h l' (List.mem_cons_of_mem l hl'))

/-- C7 -- `parseNoteFileWithErrors` (a total function, hence it never
throws) skips whitespace-only lines, and on any store consisting of
three well-formed lines and one malformed non-blank line it returns
exactly 3 records and exactly 1 error carrying the malformed line's
1-based position. -/
theorem c7_decode_error_collection :
    (∀ content : String, (∀ l ∈ jsSplitNL content, jsTrim l = "") →
      parseNoteFileWithErrors content = ([], [])) ∧
    (∀ (content : String) (pre post : List String) (bad : String),
      jsSplitNL content = pre ++ bad :: post →
      (∀ l ∈ pre ++ post, (parseNote l).isSome = true) →
      pre.length + post.length = 3 →
      parseNote bad = none → jsTrim bad ≠ "" →
      (parseNoteFileWithErrors content).1.length = 3 ∧
      (parseNoteFileWithErrors content).2 =
        [{ line := pre.length + 1, content := bad, error := "Invalid format" }]) := by
  constructor
  · intro content h
    unfold parseNoteFileWithErrors
    exact parseNoteLines_all_blank _ 0 h
  · intro content pre post bad hsplit hsome hlen hbad hbtrim
    unfold parseNoteFileWithErrors
    rw [hsplit, show pre ++ bad :: post = pre ++ ([bad] ++ post) from by simp,
      parseNoteLines_append pre ([bad] ++ post) 0,
      parseNoteLines_append [bad] post (0 + pre.length)]
    have hpre := parseNoteLines_all_some pre 0
      (fun l hl => hsome l (List.mem_append.2 (Or.inl hl)))
    have hpost := parseNoteLines_all_some post (0 + pre.length + 1)
      (fun l hl => hsome l (List.mem_append.2 (Or.inr hl)))
    have hbadl : parseNoteLines [bad] (0 + pre.length) =
        ([], [{ line := pre.length + 1, content := bad, error := "Invalid format" }]) := by
      rw [parseNoteLines_cons, if_neg hbtrim, hbad]
      rw [show parseNoteLines [] (0 + pre.length + 1) = ([], []) from rfl]
      simp [Nat.zero_add]
    have hlen1 : (0 : Nat) + pre.length + ([bad] : List String).length =
        0 + pre.length + 1 := by simp
    rw [hbadl, hlen1]
    constructor
    · simp only [List.length_append, hpre.1, hpost.1]
      simpa using hlen
    · rw [hpre.2, hpost.2]
      simp

/-- C7 -- witness: a whitespace-only store decodes to nothing, and the
concrete 3-good/1-bad store yields 3 records and the line-2 error. -/
theorem c7_decode_error_collection_witness :
    parseNoteFileWithErrors " \n\t" = ([], []) ∧
    ((parseNoteFileWithErrors
        "f#L1 \"a\"\nbad line\ng#L2-3 \"b\"\nh#L4 \"c\"").1.length = 3 ∧
      (parseNoteFileWithErrors
        "f#L1 \"a\"\nbad line\ng#L2-3 \"b\"\nh#L4 \"c\"").2 =
        [{ line := 2, content := "bad line", error := "Invalid format" }]) := by
  refine ⟨c7_decode_error_collection.1 " \n\t" (by decide), ?_⟩
  have h2 := c7_decode_error_collection.2
    "f#L1 \"a\"\nbad line\ng#L2-3 \"b\"\nh#L4 \"c\""
    ["f#L1 \"a\""] ["g#L2-3 \"b\"", "h#L4 \"c\""] "bad line"
    (by rfl) (by decide) (by rfl) (by rfl) (by decide)
  simpa using h2

/-! ## C8: indentation normalization -/

/-- C8 -- on the selected lines `["    foo", "        bar"]` the
computed minimum indent is 4 columns and exactly 4 columns are stripped
from each line, so the preview bodies after the padded line-number
prefix are `foo` and `    bar`. -/
theorem c8_indentation_normalization :
    calculateMinimumIndent ["    foo", "        bar"] = 4 ∧
    removeIndent "    foo" 4 = "foo" ∧
    removeIndent "        bar" 4 = "    bar" ∧
    generateCodePreview ["    foo", "        bar"] 1 2 =
      ["> 1: foo", "> 2:     bar"] := by
  refine ⟨rfl, rfl, rfl, rfl⟩

/-! ## Heading matcher shape facts -/

theorem fileHeaderMatch_none_of_not_leads {line : String}
    (h : strLeads "##" line = false) : fileHeaderMatch line = none := by
  rcases hd : line.data with _ | ⟨c1, _ | ⟨c2, rest⟩⟩ <;> unfold fileHeaderMatch <;>
    rw [hd]
  have hc : ¬(c1 = '#' ∧ c2 = '#') := by
    rintro ⟨rfl, rfl⟩
    rw [strLeads, hd] at h
    simp [leadsWith] at h
  show (if c1 = '#' ∧ c2 = '#' then _ else none) = none
  rw [if_neg hc]

theorem lineHeaderMatch_none_of_not_leads {line : String}
    (h : strLeads "##" line = false) : lineHeaderMatch line = none := by
  rcases hd : line.data with _ | ⟨c1, _ | ⟨c2, _ | ⟨c3, rest⟩⟩⟩ <;>
    unfold lineHeaderMatch <;> rw [hd]
  have hc : ¬(c1 = '#' ∧ c2 = '#' ∧ c3 = '#') := by
    rintro ⟨rfl, rfl, _⟩
    rw [strLeads, hd] at h
    simp [leadsWith] at h
  show (if c1 = '#' ∧ c2 = '#' ∧ c3 = '#' then _ else none) = none
  rw [if_neg hc]

theorem lineHeaderMatch_shape {line : String} {spec : String}
    (h : lineHeaderMatch line = some spec) :
    ∃ rest, line.data = '#' :: '#' :: '#' :: rest := by
  unfold lineHeaderMatch at h
  rcases hd : line.data with _ | ⟨c1, _ | ⟨c2, _ | ⟨c3, rest⟩⟩⟩ <;> rw [hd] at h
  · exact absurd h (by simp)
  · exact absurd h (by simp)
  · exact absurd h (by simp)
  · by_cases hc : c1 = '#' ∧ c2 = '#' ∧ c3 = '#'
    · obtain ⟨h1, h2, h3⟩ := hc
      subst h1
      subst h2
      subst h3
      exact ⟨rest, rfl⟩
    · have h2 : (if c1 = '#' ∧ c2 = '#' ∧ c3 = '#' then _ else none) = some spec := h
      rw [if_neg hc] at h2
      exact absurd h2 (by simp)

theorem fileHeaderMatch_of_hash3 {line : String} {rest : List Char}
    (hd : line.data = '#' :: '#' :: '#' :: rest) : fileHeaderMatch line = none := by
  unfold fileHeaderMatch
  rw [hd]
  show (if ('#' : Char) = '#' ∧ ('#' : Char) = '#' then
    (let ws := ('#' :: rest).takeWhile jsWsChar
     if ws = [] then none
     else _)
    else none) = none
  rw [if_pos ⟨rfl, rfl⟩]
  show (if ('#' :: rest).takeWhile jsWsChar = [] then none else _) = none
  rw [takeWhile_cons_false _ (by decide), if_pos rfl]

theorem ne_general_of_hash3 {line : String} {rest : List Char}
    (hd : line.data = '#' :: '#' :: '#' :: rest) : line ≠ "## // Notes" := by
  intro he
  rw [he] at hd
  have h2 : ("## // Notes").data = '#' :: '#' :: '#' :: rest := hd
  simp at h2

/-! ## C4: the extractor silently drops empty sections -/

/-- C4 -- counterexample.  A range heading immediately followed by
another heading: the claim demands an error naming `f#L1`; the code
produces no error at all (and no pair for `f#L1`). -/
theorem c4_counterexample :
    parseMarkdownToNotes
        "# Vibe Notes\n## [f](f)\n### [L1](f#L1)\n### [L2](f#L2)\nbody" =
      ([⟨"f", 2, 2, "body"⟩], []) := by
  rfl

/-- C4 (amended) -- an empty section is dropped silently, not reported:
from any reachable state with an empty body buffer inside a file
section, processing a range heading `H` (for some key) immediately
followed by another heading `N` emits no pair and no error -- the run is
the run in which `H` merely updates the current line spec, and the
following heading `N` flushes nothing either. -/
theorem c4_empty_section_dropped (st : PMTState) (H N : String)
    (rest : List String) (f spec : String)
    (hfound : st.foundFirstHeading = true)
    (hfile : st.currentFile = some f) (hf : f ≠ "/")
    (hbuf : st.noteLines = [])
    (hH : lineHeaderMatch H = some spec)
    (hN : (fileHeaderMatch N).isSome = true ∨ (lineHeaderMatch N).isSome = true ∨
      N = "## // Notes") :
    pmtLoop (H :: N :: rest) st =
      pmtLoop (N :: rest)
        { st with
          currentLineSpec := some spec, collectingNote := true,
          noteLines := [] } ∧
    (∀ nn : String,
      (pmtStep { st with
          currentLineSpec := some spec, collectingNote := true,
          noteLines := [] } N nn).notes = st.notes ∧
      (pmtStep { st with
          currentLineSpec := some spec, collectingNote := true,
          noteLines := [] } N nn).errors = st.errors) := by
  obtain ⟨r3, hr3⟩ := lineHeaderMatch_shape hH
  have hstep : pmtStep st H ((N :: rest).headD "") =
      { st with
        currentLineSpec := some spec, collectingNote := true,
        noteLines := [] } := by
    unfold pmtStep
    rw [hfound]
    rw [if_neg (by simp)]
    rw [if_neg (ne_general_of_hash3 hr3)]
    simp only [fileHeaderMatch_of_hash3 hr3, hH, hfile]
    rw [if_pos hf]
    rcases hsp : st.currentLineSpec with _ | spec0 <;> simp [hbuf]
  refine ⟨?_, ?_⟩
  · show pmtLoop (N :: rest) (pmtStep st H ((N :: rest).headD "")) = _
    rw [hstep]
  · intro nn
    set st' : PMTState :=
      { st with
        currentLineSpec := some spec, collectingNote := true,
        noteLines := [] } with hst'
    have hfile' : st'.currentFile = some f := hfile
    have hbuf' : st'.noteLines = [] := rfl
    have hfound' : st'.foundFirstHeading = true := hfound
    have hflush : pmtFlush st' = (st.notes, st.errors) := by
      unfold pmtFlush
      rw [hfile']
      simp
    rcases hN with hN | hN | hN
    · rcases Option.isSome_iff_exists.1 hN with ⟨g, hg⟩
      by_cases hgen : N = "## // Notes"
      · unfold pmtStep
        rw [hfound']
        rw [if_neg (by simp), if_pos hgen, hflush]
        simp
      · unfold pmtStep
        rw [hfound']
        rw [if_neg (by simp), if_neg hgen]
        simp only [hg, hflush]
        simp
    · rcases Option.isSome_iff_exists.1 hN with ⟨sp2, hsp2⟩
      obtain ⟨r4, hr4⟩ := lineHeaderMatch_shape hsp2
      unfold pmtStep
      rw [hfound']
      rw [if_neg (by simp), if_neg (ne_general_of_hash3 hr4)]
      simp only [fileHeaderMatch_of_hash3 hr4, hsp2, hfile]
      rw [if_pos hf]
      simp
    · unfold pmtStep
      rw [hfound']
      rw [if_neg (by simp), if_pos hN, hflush]
      simp

/-- C4 -- witness: the concrete run of the amended theorem on the state
just inside the `f` section, with the empty section for `f#L1` followed
by the heading for `f#L2`. -/
theorem c4_empty_section_dropped_witness :
    pmtLoop ["### [L1](f#L1)", "### [L2](f#L2)"]
        ⟨true, some "f", none, false, [], [], []⟩ =
      pmtLoop ["### [L2](f#L2)"]
        { (⟨true, some "f", none, false, [], [], []⟩ : PMTState) with
          currentLineSpec := some "1", collectingNote := true,
          noteLines := [] } ∧
    (∀ nn : String,
      (pmtStep { (⟨true, some "f", none, false, [], [], []⟩ : PMTState) with
          currentLineSpec := some "1", collectingNote := true,
          noteLines := [] } "### [L2](f#L2)" nn).notes =
        (⟨true, some "f", none, false, [], [], []⟩ : PMTState).notes ∧
      (pmtStep { (⟨true, some "f", none, false, [], [], []⟩ : PMTState) with
          currentLineSpec := some "1", collectingNote := true,
          noteLines := [] } "### [L2](f#L2)" nn).errors =
        (⟨true, some "f", none, false, [], [], []⟩ : PMTState).errors) :=
  c4_empty_section_dropped ⟨true, some "f", none, false, [], [], []⟩
    "### [L1](f#L1)" "### [L2](f#L2)" [] "f" "1" rfl rfl (by decide) rfl rfl
    (Or.inr (Or.inl rfl))

/-! ## C9: every extracted body is trimmed, but empty bodies do occur -/

/-- Every entry of `mapSet m k v` is an entry of `m` or carries the new
value. -/
theorem mem_mapSet {m : List (String × String)} {k v : String} {p : String × String}
    (h : p ∈ mapSet m k v) : p ∈ m ∨ p.2 = v := by
  induction m with
  | nil =>
    simp only [mapSet, List.mem_singleton] at h
    subst h
    exact Or.inr rfl
  | cons q rest ih =>
    obtain ⟨k1, v1⟩ := q
    rw [mapSet] at h
    by_cases hk : k1 = k
    · rw [if_pos hk] at h
      rcases List.mem_cons.1 h with h | h
      · subst h
        exact Or.inr rfl
      · exact Or.inl (List.mem_cons_of_mem _ h)
    · rw [if_neg hk] at h
      rcases List.mem_cons.1 h with h | h
      · subst h
        exact Or.inl (List.mem_cons_self _ _)
      · rcases ih h with h | h
        · exact Or.inl (List.mem_cons_of_mem _ h)
        · exact Or.inr h

/-- Every value of the `parseMarkdownComments` map is a `jsTrim` fixpoint. -/
def accTrimmed (m : List (String × String)) : Prop :=
  ∀ p ∈ m, jsTrim p.2 = p.2

theorem accTrimmed_mapSet {m : List (String × String)} (h : accTrimmed m)
    (k t : String) : accTrimmed (mapSet m k (jsTrim t)) := by
  intro p hp
  rcases mem_mapSet hp with h' | h'
  · exact h p h'
  · rw [h']
    exact jsTrim_idem t

theorem accTrimmed_pmcFlush {st : PMCState} (h : accTrimmed st.acc) :
    accTrimmed (pmcFlush st) := by
  unfold pmcFlush
  rcases hf : st.currentFile with _ | f <;>
    rcases hs : st.currentLineSpec with _ | spec <;> simp only [hf, hs]
  · exact h
  · exact h
  · exact h
  · split
    · exact accTrimmed_mapSet h _ _
    · exact h

theorem accTrimmed_pmcStep (st : PMCState) (line nextLine : String)
    (h : accTrimmed st.acc) : accTrimmed (pmcStep st line nextLine).acc := by
  unfold pmcStep
  rcases hf : fileHeaderMatch line with _ | f <;> simp only [hf]
  · rcases hl : lineHeaderMatch line with _ | spec <;>
      rcases hcf : st.currentFile with _ | f2 <;> simp only [hl, hcf]
    · split
      · split
        · exact h
        · split
          · exact accTrimmed_pmcFlush h
          · split
            · exact h
            · exact h
      · exact h
    · split
      · split
        · exact h
        · split
          · exact accTrimmed_pmcFlush h
          · split
            · exact h
            · exact h
      · exact h
    · split
      · split
        · exact h
        · split
          · exact accTrimmed_pmcFlush h
          · split
            · exact h
            · exact h
      · exact h
    · rcases hcl : st.currentLineSpec with _ | spec0 <;> simp only [hcl]
      · exact h
      · split
        · exact accTrimmed_mapSet h _ _
        · exact h
  · exact accTrimmed_pmcFlush h

theorem accTrimmed_pmcLoop (lines : List String) : ∀ st : PMCState,
    accTrimmed st.acc → accTrimmed (pmcLoop lines st).acc := by
  induction lines with
  | nil => exact fun st h => h
  | cons l rest ih =>
    intro st h
    rw [pmcLoop]
    exact ih _ (accTrimmed_pmcStep st l _ h)

/-- `parseLineSpec` only builds a note out of the text it is given, and
only when that text is nonempty. -/
theorem parseLineSpecMD_note {f spec txt : String} {n : ParsedNote}
    (h : parseLineSpecMD f spec txt = .note n) : n.comment = txt ∧ txt ≠ "" := by
  unfold parseLineSpecMD at h
  by_cases ht : txt = ""
  · rw [if_pos ht] at h
    cases h
  · rw [if_neg ht] at h
    refine ⟨?_, ht⟩
    by_cases hd : spec.data.contains '-'
    · rw [if_pos hd] at h
      rcases hs : parseIntDigits ((splitDash spec.data).headD []) with _ | s <;>
        rcases he : parseIntDigits (((splitDash spec.data).drop 1).headD []) with _ | e <;>
        simp only [hs, he] at h
      · cases h
      · cases h
      · cases h
      · by_cases hse : s > e
        · rw [if_pos hse] at h
          cases h
        · rw [if_neg hse] at h
          have h2 := LineSpecResult.note.inj h
          rw [← h2]
    · rw [if_neg hd] at h
      rcases hl : parseIntDigits spec.data with _ | l <;> simp only [hl] at h
      · cases h
      · have h2 := LineSpecResult.note.inj h
        rw [← h2]

/-- Every note built by `parseMarkdownToNotes` has a trimmed nonempty
comment. -/
def notesTrimmed (ns : List ParsedNote) : Prop :=
  ∀ n ∈ ns, jsTrim n.comment = n.comment ∧ n.comment ≠ ""

theorem notesTrimmed_pmtFlushInto {f spec : String} {buf : List String}
    {notes : List ParsedNote} {errors : List String} (h : notesTrimmed notes) :
    notesTrimmed (pmtFlushInto f spec buf notes errors).1 := by
  unfold pmtFlushInto
  rcases hp : parseLineSpecMD f spec (jsTrim (joinLines buf)) with n | e <;>
    simp only [hp]
  · intro x hx
    rcases List.mem_append.1 hx with hx | hx
    · exact h x hx
    · rw [List.mem_singleton] at hx
      subst hx
      obtain ⟨hc, hne⟩ := parseLineSpecMD_note hp
      refine ⟨?_, ?_⟩
      · rw [hc]
        exact jsTrim_idem _
      · rw [hc]
        exact hne
  · exact h

theorem notesTrimmed_pmtFlush {st : PMTState} (h : notesTrimmed st.notes) :
    notesTrimmed (pmtFlush st).1 := by
  unfold pmtFlush
  rcases hf : st.currentFile with _ | f <;>
    rcases hs : st.currentLineSpec with _ | spec <;> simp only [hf, hs]
  · exact h
  · exact h
  · exact h
  · split
    · exact notesTrimmed_pmtFlushInto h
    · exact h

theorem notesTrimmed_pmtBody {st : PMTState} (line nextLine : String)
    (h : notesTrimmed st.notes) : notesTrimmed (pmtBody st line nextLine).notes := by
  unfold pmtBody
  split
  · split
    · exact h
    · split
      · rcases hfl : pmtFlush st with ⟨ns, es⟩
        simp only [hfl]
        have h2 := @notesTrimmed_pmtFlush st h
        rw [hfl] at h2
        exact h2
      · split
        · exact h
        · exact h
  · exact h

theorem notesTrimmed_pmtStep (st : PMTState) (line nextLine : String)
    (h : notesTrimmed st.notes) : notesTrimmed (pmtStep st line nextLine).notes := by
  unfold pmtStep
  split
  · split
    · exact h
    · exact h
  · split
    · rcases hfl : pmtFlush st with ⟨ns, es⟩
      simp only [hfl]
      have h2 := @notesTrimmed_pmtFlush st h
      rw [hfl] at h2
      exact h2
    · rcases hfm : fileHeaderMatch line with _ | f <;> simp only [hfm]
      · rcases hlm : lineHeaderMatch line with _ | spec <;>
          rcases hcf : st.currentFile with _ | f2 <;> simp only [hlm, hcf]
        · exact notesTrimmed_pmtBody line nextLine h
        · exact notesTrimmed_pmtBody line nextLine h
        · exact notesTrimmed_pmtBody line nextLine h
        · split
          · rcases hcl : st.currentLineSpec with _ | spec0 <;> simp only [hcl]
            · exact h
            · split
              · rcases hfi : pmtFlushInto f2 spec0 st.noteLines st.notes st.errors
                  with ⟨ns, es⟩
                simp only [hfi]
                have h2 := @notesTrimmed_pmtFlushInto
                  f2 spec0 st.noteLines st.notes st.errors h
                rw [hfi] at h2
                exact h2
              · exact h
          · exact notesTrimmed_pmtBody line nextLine h
      · exact notesTrimmed_pmtFlush h

theorem notesTrimmed_pmtLoop (lines : List String) : ∀ st : PMTState,
    notesTrimmed st.notes → notesTrimmed (pmtLoop lines st).notes := by
  induction lines with
  | nil => exact fun st h => h
  | cons l rest ih =>
    intro st h
    rw [pmtLoop]
    exact ih _ (notesTrimmed_pmtStep st l _ h)

/-- C9 -- counterexample.  A section whose body is a single whitespace
line: the extractor emits the pair `("f#L1", "")`, whose value is the
empty string, refuting "non-empty". -/
theorem c9_counterexample :
    mapGet (parseMarkdownComments "## [f](f)\n### [L1](f#L1)\n \n## [g](g)")
      "f#L1" = some "" := by
  rfl

/-- C9 (amended) -- every body text emitted by the extractors is a
`trim` fixpoint (no leading and no trailing whitespace), and every note
built by `parseMarkdownToNotes` has a nonempty comment; but a value of
the `parseMarkdownComments` map may be the empty string (a
whitespace-only section is emitted as `""`, not suppressed). -/
theorem c9_amended_trimmed (content : String) :
    (∀ p ∈ parseMarkdownComments content, jsTrim p.2 = p.2) ∧
    (∀ n ∈ (parseMarkdownToNotes content).1,
      jsTrim n.comment = n.comment ∧ n.comment ≠ "") := by
  constructor
  · exact accTrimmed_pmcFlush
      (accTrimmed_pmcLoop _ _ (fun p hp => absurd hp (List.not_mem_nil p)))
  · exact notesTrimmed_pmtFlush
      (notesTrimmed_pmtLoop _ _ (fun n hn => absurd hn (List.not_mem_nil n)))

/-! ## C2: the render / extract / reconcile round trip.

The rendered document is re-parsed by `parseMarkdownComments`; the run
of the extractor state machine over the rendered lines is characterized
block by block, and every extracted pair is shown to be the note's own
key and comment. -/

theorem leadsWith_hash3_to_hash2 {cs : List Char}
    (h2 : leadsWith ['#', '#', '#'] cs = true) :
    leadsWith ['#', '#'] cs = true := by
  rcases cs with _ | ⟨a, _ | ⟨b, r⟩⟩
  · simp [leadsWith] at h2
  · simp [leadsWith] at h2
  · rw [leadsWith, Bool.and_eq_true] at h2 ⊢
    refine ⟨h2.1, ?_⟩
    have h3 := h2.2
    rw [leadsWith, Bool.and_eq_true] at h3 ⊢
    exact ⟨h3.1, rfl⟩

theorem strLeads_hash3_to_hash2 {l : String} (h : strLeads "###" l = true) :
    strLeads "##" l = true := by
  have h2 : leadsWith ['#', '#', '#'] l.data = true := h
  show leadsWith ['#', '#'] l.data = true
  exact leadsWith_hash3_to_hash2 h2

theorem leadsWith_gt_to_not_hash2 {cs : List Char}
    (h2 : leadsWith ['>', ' '] cs = true) :
    leadsWith ['#', '#'] cs = false := by
  rcases cs with _ | ⟨a, r⟩
  · simp [leadsWith] at h2
  · rw [leadsWith, Bool.and_eq_true] at h2
    have ha : a = '>' := (of_decide_eq_true h2.1).symm
    subst ha
    rw [leadsWith]
    simp

theorem strLeads_gt_to_not_hash2 {l : String} (h : strLeads "> " l = true) :
    strLeads "##" l = false := by
  have h2 : leadsWith ['>', ' '] l.data = true := h
  show leadsWith ['#', '#'] l.data = false
  exact leadsWith_gt_to_not_hash2 h2

theorem strLeads_hash2_empty : strLeads "##" "" = false := rfl

theorem strLeads_hash2_of_data {l : String} {r : List Char}
    (hd : l.data = '#' :: '#' :: r) : strLeads "##" l = true := by
  show leadsWith ['#', '#'] l.data = true
  rw [hd, leadsWith, leadsWith, leadsWith]
  simp

/-- The extractor's flush condition on the following line is false as
soon as the line does not start with `##`. -/
theorem hash_or_false {nl : String} (h : strLeads "##" nl = false) :
    (strLeads "##" nl || strLeads "###" nl) = false := by
  rw [h, Bool.false_or]
  by_cases h3 : strLeads "###" nl = true
  · rw [strLeads_hash3_to_hash2 h3] at h
    cases h
  · simpa using h3

theorem dropWhile_fix_head {p : Char → Bool} {l : List Char} (h : l.dropWhile p = l) :
    ∀ c, l.head? = some c → p c = false := by
  intro c hc
  rcases l with _ | ⟨a, r⟩
  · cases hc
  · rw [List.head?_cons, Option.some_inj] at hc
    subst hc
    by_cases hp : p a
    · rw [List.dropWhile_cons, if_pos hp] at h
      have h2 := congrArg List.length h
      have h3 := (List.dropWhile_suffix (l := r) p).sublist.length_le
      simp at h2
      omega
    · simpa using hp

theorem jsTrimChars_fix {cs : List Char} (h : jsTrimChars cs = cs) :
    cs.dropWhile jsWsChar = cs ∧ cs.reverse.dropWhile jsWsChar = cs.reverse := by
  have hlen1 : (jsTrimChars cs).length ≤ (cs.dropWhile jsWsChar).length := by
    unfold jsTrimChars
    rw [List.length_reverse]
    calc ((cs.dropWhile jsWsChar).reverse.dropWhile jsWsChar).length
        ≤ (cs.dropWhile jsWsChar).reverse.length :=
          (List.dropWhile_suffix jsWsChar).sublist.length_le
      _ = (cs.dropWhile jsWsChar).length := List.length_reverse _
  have hd : cs.dropWhile jsWsChar = cs := by
    have h2 : (cs.dropWhile jsWsChar).length ≤ cs.length :=
      (List.dropWhile_suffix jsWsChar).sublist.length_le
    rw [h] at hlen1
    exact (List.dropWhile_suffix jsWsChar).sublist.eq_of_length
      (le_antisymm h2 hlen1)
  refine ⟨hd, ?_⟩
  have h4 : jsTrimChars cs = (cs.reverse.dropWhile jsWsChar).reverse := by
    unfold jsTrimChars
    rw [hd]
  rw [h] at h4
  have h5 := congrArg List.reverse h4
  rw [List.reverse_reverse] at h5
  exact h5.symm

theorem jsTrim_fix_data {t : String} (h : jsTrim t = t) :
    jsTrimChars t.data = t.data := congrArg String.data h

theorem string_mk_ne_empty {p : List Char} (h : p ≠ []) : String.mk p ≠ "" :=
  fun h2 => h (congrArg String.data h2)

theorem string_data_ne_nil {t : String} (h : t ≠ "") : t.data ≠ [] := by
  intro h2
  apply h
  have h3 := congrArg String.mk h2
  rw [string_mk_data] at h3
  exact h3

theorem splitNL_head {c : Char} (hc : c ≠ '\n') (r : List Char) :
    ∃ x xs, splitNL (c :: r) = (c :: x) :: xs := by
  rw [splitNL, if_neg hc]
  rcases hs : splitNL r with _ | ⟨x, xs⟩
  · exact absurd hs (splitNL_ne_nil r)
  · exact ⟨x, xs, rfl⟩

theorem splitNL_getLast {c : Char} (hc : c ≠ '\n') :
    ∀ cs : List Char, cs.getLast? = some c → (splitNL cs).getLast? ≠ some [] := by
  intro cs
  induction cs with
  | nil => intro h; cases h
  | cons a r ih =>
    intro h
    rcases hr : r with _ | ⟨b, r'⟩
    · subst hr
      rw [List.getLast?_singleton, Option.some_inj] at h
      subst h
      rw [splitNL, if_neg hc]
      intro h2
      simp [splitNL, consHead] at h2
    · subst hr
      rw [List.getLast?_cons_cons] at h
      have ih2 := ih h
      by_cases ha : a = '\n'
      · rw [splitNL, if_pos ha]
        rcases hs : splitNL (b :: r') with _ | ⟨x, xs⟩
        · exact absurd hs (splitNL_ne_nil _)
        · rw [List.getLast?_cons_cons]
          rw [hs] at ih2
          exact ih2
      · rw [splitNL, if_neg ha]
        rcases hs : splitNL (b :: r') with _ | ⟨x, xs⟩
        · exact absurd hs (splitNL_ne_nil _)
        · rw [consHead]
          rcases hxs : xs with _ | ⟨y, ys⟩
          · intro h2
            rw [List.getLast?_singleton, Option.some_inj] at h2
            simp at h2
          · rw [List.getLast?_cons_cons]
            rw [hs, hxs, List.getLast?_cons_cons] at ih2
            exact ih2

/-- The line list of a trimmed nonempty string starts and ends with a
nonempty line. -/
theorem body_lines_ok {t : String} (htr : jsTrim t = t) (hne : t ≠ "") :
    (jsSplitNL t).headD "" ≠ "" ∧ (jsSplitNL t).getLast? ≠ some "" := by
  have hfix := jsTrimChars_fix (jsTrim_fix_data htr)
  have hd0 : t.data ≠ [] := string_data_ne_nil hne
  rcases hdt : t.data with _ | ⟨c, r⟩
  · exact absurd hdt hd0
  · have hfix1 := hfix.1
    have hfix2 := hfix.2
    rw [hdt] at hfix1 hfix2
    have hcws : jsWsChar c = false := dropWhile_fix_head hfix1 c rfl
    have hcnl : c ≠ '\n' := by
      intro h
      subst h
      simp [jsWsChar] at hcws
    constructor
    · obtain ⟨x, xs, hsp⟩ := splitNL_head hcnl r
      show ((splitNL t.data).map String.mk).headD "" ≠ ""
      rw [hdt, hsp]
      exact string_mk_ne_empty (by simp)
    · have hlast : ∀ d, (c :: r).getLast? = some d → jsWsChar d = false := by
        intro d hdl
        have h2 := dropWhile_fix_head hfix2 d
        rw [List.head?_reverse] at h2
        exact h2 hdl
      obtain ⟨d, hdl⟩ : ∃ d, (c :: r).getLast? = some d :=
        ⟨(c :: r).getLast (by simp), List.getLast?_eq_getLast _ _⟩
      have hdws := hlast d hdl
      have hdnl : d ≠ '\n' := by
        intro h
        subst h
        simp [jsWsChar] at hdws
      have h3 := splitNL_getLast hdnl (c :: r) hdl
      show ((splitNL t.data).map String.mk).getLast? ≠ some ""
      rw [hdt]
      intro h4
      apply h3
      rw [List.getLast?_map] at h4
      rcases hg : (splitNL (c :: r)).getLast? with _ | p
      · rw [hg] at h4
        cases h4
      · rw [hg] at h4
        have h4b : String.mk p = "" := by simpa using h4
        have h5 : p = [] := congrArg String.data h4b
        rw [h5]

theorem joinNL_append_nil {X : List (List Char)} (h : X ≠ []) :
    joinNL (X ++ [[]]) = joinNL X ++ ['\n'] := by
  induction X with
  | nil => exact absurd rfl h
  | cons x t ih =>
    cases t with
    | nil => rfl
    | cons y t' =>
      have h2 : joinNL (x :: (y :: t') ++ [[]]) =
          x ++ '\n' :: joinNL ((y :: t') ++ [[]]) := by
        rw [List.cons_append]
        rfl
      rw [h2, ih (by simp), joinNL]
      simp

theorem jsTrimChars_append_ws {c : Char} (hc : jsWsChar c = true) (Y : List Char) :
    jsTrimChars (Y ++ [c]) = jsTrimChars Y := by
  unfold jsTrimChars
  rcases hD : Y.dropWhile jsWsChar with _ | ⟨d, D'⟩
  · have hall : ∀ x ∈ Y, jsWsChar x = true := by
      intro x hx
      exact List.dropWhile_eq_nil_iff.1 hD x hx
    rw [dropWhile_append_all hall [c]]
    simp [List.dropWhile_cons, hc, hD]
  · have hdws : jsWsChar d = false := by
      have := dropWhile_fix_head (dropWhile_dropWhile (p := jsWsChar) Y) d
      rw [hD] at this
      exact this rfl
    have hsplit : Y.dropWhile jsWsChar ++ [c] = (Y ++ [c]).dropWhile jsWsChar := by
      rw [List.dropWhile_append, hD]
      simp
    rw [← hsplit, hD]
    have h2 : ((d :: D') ++ [c]).reverse = c :: (d :: D').reverse := by
      simp
    rw [h2, List.dropWhile_cons, if_pos hc]

theorem jsTrim_joinLines_blank {B : List String} (h : B ≠ []) :
    jsTrim (joinLines (B ++ [""])) = jsTrim (joinLines B) := by
  show String.mk (jsTrimChars (joinNL ((B ++ [""]).map String.data))) =
    String.mk (jsTrimChars (joinNL (B.map String.data)))
  rw [List.map_append]
  have h2 : ([""] : List String).map String.data = [[]] := rfl
  rw [h2, joinNL_append_nil (by simpa using h), jsTrimChars_append_ws (by decide)]

theorem map_data_map_mk (L : List (List Char)) :
    (L.map String.mk).map String.data = L := by
  induction L with
  | nil => rfl
  | cons x t ih =>
    rw [List.map_cons, List.map_cons, ih]

theorem joinLines_jsSplitNL (t : String) : joinLines (jsSplitNL t) = t := by
  show String.mk (joinNL (((splitNL t.data).map String.mk).map String.data)) = t
  rw [map_data_map_mk, joinNL_splitNL, string_mk_data]

/-- One rendered note block, abstracted: the range heading line, the
skippable lines after it (the blank and any `> `-quoted excerpt lines
with their trailing blank), and the body text. -/
structure NB where
  heading : String
  spec : String
  pre : List String
  body : String

/-- The document lines one note block contributes: the heading, the
skippable lines, the body's lines and the terminating blank. -/
def nbLines (nb : NB) : List String :=
  nb.heading :: nb.pre ++ jsSplitNL nb.body ++ [""]

/-- What the renderer guarantees for a note block. -/
def NBok (nb : NB) : Prop :=
  fileHeaderMatch nb.heading = none ∧
  lineHeaderMatch nb.heading = some nb.spec ∧
  strLeads "##" nb.heading = true ∧
  (∀ l ∈ nb.pre, strLeads "> " l = true ∨ l = "") ∧
  jsTrim nb.body = nb.body ∧ nb.body ≠ "" ∧
  (∀ l ∈ jsSplitNL nb.body, strLeads "##" l = false ∧ strLeads "> " l = false)

theorem jsSplitNL_ne_nil (t : String) : jsSplitNL t ≠ [] := by
  intro h
  rw [jsSplitNL, List.map_eq_nil_iff] at h
  exact splitNL_ne_nil t.data h

theorem getLast?_tail_ne {l : String} {b : List String}
    (h : (l :: b).getLast? ≠ some "") : b.getLast? ≠ some "" := by
  rcases b with _ | ⟨x, b'⟩
  · simp
  · rw [List.getLast?_cons_cons] at h
    exact h

/-- Processing a range heading from inside a file section with an empty
buffer: the machine starts collecting under the new line spec. -/
theorem pmc_heading (f heading spec nl : String) (cls : Option String) (cc : Bool)
    (acc : List (String × String))
    (hfm : fileHeaderMatch heading = none)
    (hlm : lineHeaderMatch heading = some spec) :
    pmcStep ⟨some f, cls, cc, [], acc⟩ heading nl =
      ⟨some f, some spec, true, [], acc⟩ := by
  unfold pmcStep
  simp only [hfm, hlm]
  rcases cls with _ | spec0 <;> simp

/-- A quote line (`> `) is skipped while collecting. -/
theorem pmc_quote_skip (l nl : String) (cf : Option String) (cls : Option String)
    (cl : List String) (acc : List (String × String))
    (hgt : strLeads "> " l = true) :
    pmcStep ⟨cf, cls, true, cl, acc⟩ l nl = ⟨cf, cls, true, cl, acc⟩ := by
  have h2 : strLeads "##" l = false := strLeads_gt_to_not_hash2 hgt
  unfold pmcStep
  simp only [fileHeaderMatch_none_of_not_leads h2,
    lineHeaderMatch_none_of_not_leads h2]
  rcases cf with _ | f0 <;> simp [hgt]

/-- A blank line with an empty buffer is skipped while collecting, as
long as the next line is not a heading. -/
theorem pmc_blank_collecting (nl : String) (cf : Option String) (cls : Option String)
    (acc : List (String × String)) (hnl : strLeads "##" nl = false) :
    pmcStep ⟨cf, cls, true, [], acc⟩ "" nl = ⟨cf, cls, true, [], acc⟩ := by
  unfold pmcStep
  have hfm : fileHeaderMatch "" = none := rfl
  have hlm : lineHeaderMatch "" = none := rfl
  simp only [hfm, hlm]
  rcases cf with _ | f0 <;> simp [hash_or_false hnl]

/-- A blank line is inert when the machine is not collecting. -/
theorem pmc_blank_notcollecting (nl : String) (cf : Option String)
    (cls : Option String) (cl : List String) (acc : List (String × String)) :
    pmcStep ⟨cf, cls, false, cl, acc⟩ "" nl = ⟨cf, cls, false, cl, acc⟩ := by
  unfold pmcStep
  have hfm : fileHeaderMatch "" = none := rfl
  have hlm : lineHeaderMatch "" = none := rfl
  simp only [hfm, hlm]
  rcases cf with _ | f0 <;> simp

/-- The skippable lines between a heading and its body (quote lines and
blanks over an empty buffer) leave the state unchanged. -/
theorem pmc_skip_pre (pre : List String) : ∀ (cf : Option String)
    (cls : Option String) (acc : List (String × String)) (rest : List String),
    (∀ l ∈ pre, strLeads "> " l = true ∨ l = "") →
    strLeads "##" (rest.headD "") = false →
    pmcLoop (pre ++ rest) ⟨cf, cls, true, [], acc⟩ =
      pmcLoop rest ⟨cf, cls, true, [], acc⟩ := by
  induction pre with
  | nil =>
    intro cf cls acc rest _ _
    rfl
  | cons l pre' ih =>
    intro cf cls acc rest hpre hrest
    have hnext : strLeads "##" ((pre' ++ rest).headD "") = false := by
      rcases pre' with _ | ⟨x, pre''⟩
      · simpa using hrest
      · rcases hpre x (by simp) with hx | hx
        · simpa using strLeads_gt_to_not_hash2 hx
        · subst hx
          simpa using strLeads_hash2_empty
    rw [List.cons_append, pmcLoop]
    rcases hpre l (by simp) with hl | hl
    · rw [pmc_quote_skip _ _ _ _ _ _ hl]
      exact ih cf cls acc rest (fun x hx => hpre x (by simp [hx])) hrest
    · subst hl
      rw [pmc_blank_collecting _ _ _ _ hnext]
      exact ih cf cls acc rest (fun x hx => hpre x (by simp [hx])) hrest

theorem strLeads_hash3_false {nl : String} (h : strLeads "##" nl = false) :
    strLeads "###" nl = false := by
  by_cases h3 : strLeads "###" nl = true
  · rw [strLeads_hash3_to_hash2 h3] at h
    cases h
  · simpa using h3

/-- A blank line over a nonempty buffer is pushed when the next line is
not a heading. -/
theorem pmc_blank_push (nl : String) (cf : Option String) (cls : Option String)
    (cl : List String) (acc : List (String × String))
    (hcl : cl ≠ []) (hnl : strLeads "##" nl = false) :
    pmcStep ⟨cf, cls, true, cl, acc⟩ "" nl = ⟨cf, cls, true, cl ++ [""], acc⟩ := by
  unfold pmcStep
  have hfm : fileHeaderMatch "" = none := rfl
  have hlm : lineHeaderMatch "" = none := rfl
  simp only [hfm, hlm]
  rcases cf with _ | f0 <;>
    simp [hnl, strLeads_hash3_false hnl, hcl, show strLeads "> " "" = false from rfl]

/-- A non-blank non-quote non-heading line is pushed onto the buffer. -/
theorem pmc_text_push (l nl : String) (cf : Option String) (cls : Option String)
    (cl : List String) (acc : List (String × String))
    (hl2 : strLeads "##" l = false) (hlgt : strLeads "> " l = false)
    (hle : l ≠ "") :
    pmcStep ⟨cf, cls, true, cl, acc⟩ l nl = ⟨cf, cls, true, cl ++ [l], acc⟩ := by
  unfold pmcStep
  simp only [fileHeaderMatch_none_of_not_leads hl2,
    lineHeaderMatch_none_of_not_leads hl2]
  rcases cf with _ | f0 <;> simp [hlgt, hle]

/-- A blank line over a nonempty buffer flushes it when a heading
follows. -/
theorem pmc_blank_flush (nl : String) (f spec : String) (body : List String)
    (acc : List (String × String))
    (hbody : body ≠ []) (hnl : strLeads "##" nl = true) :
    pmcStep ⟨some f, some spec, true, body, acc⟩ "" nl =
      ⟨some f, some spec, false, [],
        mapSet acc (f ++ "#L" ++ spec) (jsTrim (joinLines body))⟩ := by
  unfold pmcStep
  have hfm : fileHeaderMatch "" = none := rfl
  have hlm : lineHeaderMatch "" = none := rfl
  simp only [hfm, hlm]
  simp [hnl, pmcFlush, hbody, show strLeads "> " "" = false from rfl]

/-- Body lines are appended to the buffer one by one. -/
theorem pmc_push_body (body : List String) : ∀ (cf : Option String)
    (cls : Option String) (cl : List String) (acc : List (String × String))
    (rest : List String),
    (∀ l ∈ body, strLeads "##" l = false ∧ strLeads "> " l = false) →
    (cl = [] → body.headD "" ≠ "") →
    body.getLast? ≠ some "" →
    pmcLoop (body ++ rest) ⟨cf, cls, true, cl, acc⟩ =
      pmcLoop rest ⟨cf, cls, true, cl ++ body, acc⟩ := by
  induction body with
  | nil =>
    intro cf cls cl acc rest _ _ _
    rw [List.nil_append, List.append_nil]
  | cons l b ih =>
    intro cf cls cl acc rest hlines hfirst hlast
    obtain ⟨hl2, hlgt⟩ := hlines l (by simp)
    have hlast2 := getLast?_tail_ne hlast
    rw [List.cons_append, pmcLoop]
    by_cases hle : l = ""
    · subst hle
      have hcl : cl ≠ [] := by
        intro h0
        exact hfirst h0 (by simp)
      have hb : b ≠ [] := by
        intro h0
        subst h0
        exact hlast (by simp)
      have hnext : strLeads "##" ((b ++ rest).headD "") = false := by
        rcases b with _ | ⟨x, b'⟩
        · exact absurd rfl hb
        · simpa using (hlines x (by simp)).1
      rw [pmc_blank_push _ cf cls cl acc hcl hnext]
      rw [ih cf cls (cl ++ [""]) acc rest (fun x hx => hlines x (by simp [hx]))
        (by intro h0; simp at h0) hlast2]
      have h3 : (cl ++ [""]) ++ b = cl ++ "" :: b := by simp
      rw [h3]
    · rw [pmc_text_push l _ cf cls cl acc hl2 hlgt hle]
      rw [ih cf cls (cl ++ [l]) acc rest (fun x hx => hlines x (by simp [hx]))
        (by intro h0; simp at h0) hlast2]
      have h3 : (cl ++ [l]) ++ b = cl ++ l :: b := by simp
      rw [h3]

/-- The terminating blank of a note block: whether a heading follows or
the input ends, the collected body is flushed with its key. -/
theorem pmc_terminator (f spec : String) (body : List String)
    (acc : List (String × String)) (rest : List String)
    (hbody : body ≠ [])
    (hrest : rest = [] ∨ strLeads "##" (rest.headD "") = true) :
    pmcFlush (pmcLoop ("" :: rest) ⟨some f, some spec, true, body, acc⟩) =
      pmcFlush (pmcLoop rest ⟨some f, some spec, false, [],
        mapSet acc (f ++ "#L" ++ spec) (jsTrim (joinLines body))⟩) := by
  rcases hrest with hrest | hrest
  · subst hrest
    show pmcFlush (pmcStep ⟨some f, some spec, true, body, acc⟩ "" "") =
      pmcFlush (⟨some f, some spec, false, [],
        mapSet acc (f ++ "#L" ++ spec) (jsTrim (joinLines body))⟩ : PMCState)
    rw [pmc_blank_push "" (some f) (some spec) body acc hbody strLeads_hash2_empty]
    unfold pmcFlush
    simp only
    rw [if_pos (by simp : body ++ [""] ≠ []), if_neg (by simp)]
    rw [jsTrim_joinLines_blank hbody]
  · rw [pmcLoop]
    rw [pmc_blank_flush _ f spec body acc hbody hrest]

theorem pmcFlush_empty (cf : Option String) (cls : Option String) (cc : Bool)
    (acc : List (String × String)) :
    pmcFlush ⟨cf, cls, cc, [], acc⟩ = acc := by
  unfold pmcFlush
  rcases cf with _ | f <;> rcases cls with _ | s <;> simp

/-- A file heading resets the section state (the flush over an empty
buffer adds nothing). -/
theorem pmc_fileheader (header nl : String) (fp : String)
    (cf : Option String) (cls : Option String) (cc : Bool)
    (acc : List (String × String))
    (hfm : fileHeaderMatch header = some fp) :
    pmcStep ⟨cf, cls, cc, [], acc⟩ header nl =
      ⟨some fp, none, false, [], acc⟩ := by
  unfold pmcStep
  simp only [hfm]
  rw [show pmcFlush ⟨cf, cls, cc, [], acc⟩ = acc from pmcFlush_empty cf cls cc acc]

/-- Running one whole note block, then flushing at the end of the run,
is inserting the block's pair. -/
theorem pmc_run_nb (nb : NB) (f : String) (cls : Option String) (cc : Bool)
    (acc : List (String × String)) (rest : List String)
    (hok : NBok nb)
    (hrest : rest = [] ∨ strLeads "##" (rest.headD "") = true) :
    pmcFlush (pmcLoop (nbLines nb ++ rest) ⟨some f, cls, cc, [], acc⟩) =
      pmcFlush (pmcLoop rest ⟨some f, some nb.spec, false, [],
        mapSet acc (f ++ "#L" ++ nb.spec) nb.body⟩) := by
  obtain ⟨hfm, hlm, hh2, hpre, htr, hne, hbody⟩ := hok
  have hbl := body_lines_ok htr hne
  have hbne : jsSplitNL nb.body ≠ [] := jsSplitNL_ne_nil nb.body
  have hn : strLeads "##" ((jsSplitNL nb.body ++ ("" :: rest)).headD "") = false := by
    rcases hsp : jsSplitNL nb.body with _ | ⟨x, xs⟩
    · exact absurd hsp hbne
    · have hx := (hbody x (by rw [hsp]; simp)).1
      simpa using hx
  rw [show nbLines nb ++ rest =
      nb.heading :: (nb.pre ++ (jsSplitNL nb.body ++ ("" :: rest))) from by
    simp [nbLines]]
  rw [pmcLoop]
  rw [pmc_heading f nb.heading nb.spec _ cls cc acc hfm hlm]
  rw [pmc_skip_pre nb.pre (some f) (some nb.spec) acc _ hpre hn]
  rw [pmc_push_body (jsSplitNL nb.body) (some f) (some nb.spec) [] acc ("" :: rest)
    hbody (fun _ => hbl.1) hbl.2]
  rw [show ([] : List String) ++ jsSplitNL nb.body = jsSplitNL nb.body from rfl]
  rw [pmc_terminator f nb.spec (jsSplitNL nb.body) acc rest hbne hrest]
  rw [show jsTrim (joinLines (jsSplitNL nb.body)) = nb.body from by
    rw [joinLines_jsSplitNL]; exact htr]

/-- Insertion of a pair list into the extractor's map, in order. -/
def insertAll (acc : List (String × String)) (ps : List (String × String)) :
    List (String × String) :=
  ps.foldl (fun a p => mapSet a p.1 p.2) acc

/-- The (key, body) pair a note block flushes. -/
def nbPair (f : String) (nb : NB) : String × String :=
  (f ++ "#L" ++ nb.spec, nb.body)

theorem pmc_run_nbs (nbs : List NB) : ∀ (f : String) (cls : Option String)
    (acc : List (String × String)) (rest : List String),
    (∀ nb ∈ nbs, NBok nb) →
    (rest = [] ∨ strLeads "##" (rest.headD "") = true) →
    pmcFlush (pmcLoop (nbs.flatMap nbLines ++ rest) ⟨some f, cls, false, [], acc⟩) =
      pmcFlush (pmcLoop rest
        ⟨some f, nbs.foldl (fun _ nb => some nb.spec) cls, false, [],
          insertAll acc (nbs.map (nbPair f))⟩) := by
  induction nbs with
  | nil =>
    intro f cls acc rest _ _
    rfl
  | cons nb nbs' ih =>
    intro f cls acc rest hok hrest
    have hr : nbs'.flatMap nbLines ++ rest = [] ∨
        strLeads "##" ((nbs'.flatMap nbLines ++ rest).headD "") = true := by
      rcases nbs' with _ | ⟨nb2, nbs''⟩
      · simpa using hrest
      · right
        obtain ⟨_, _, hh2, _⟩ := hok nb2 (by simp)
        simpa [nbLines] using hh2
    rw [List.flatMap_cons, List.append_assoc]
    rw [pmc_run_nb nb f cls false acc (nbs'.flatMap nbLines ++ rest)
      (hok nb (by simp)) hr]
    rw [ih f (some nb.spec) (mapSet acc (f ++ "#L" ++ nb.spec) nb.body)
      rest (fun x hx => hok x (by simp [hx])) hrest]
    rfl

/-- The document lines one file group contributes. -/
def grpLines (fp : String) (nbs : List NB) : List String :=
  ("## [" ++ fp ++ "](" ++ fp ++ ")") :: "" :: nbs.flatMap nbLines

/-- The pairs one file group flushes, in order. -/
def grpPairs (g : String × List NB) : List (String × String) :=
  g.2.map (nbPair g.1)

/-- What the renderer guarantees for a file group. -/
def GrpOK (g : String × List NB) : Prop :=
  fileHeaderMatch ("## [" ++ g.1 ++ "](" ++ g.1 ++ ")") = some g.1 ∧
  ∀ nb ∈ g.2, NBok nb

theorem strLeads_hash2_header (fp : String) :
    strLeads "##" ("## [" ++ fp ++ "](" ++ fp ++ ")") = true := by
  apply strLeads_hash2_of_data
  show ("## [" ++ fp ++ "](" ++ fp ++ ")").data = '#' :: '#' :: (' ' :: '[' :: (fp ++ "](" ++ fp ++ ")").data)
  have h1 : ("## [" : String).data = ['#', '#', ' ', '['] := rfl
  rw [show ("## [" ++ fp ++ "](" ++ fp ++ ")") = "## [" ++ (fp ++ "](" ++ fp ++ ")") from by
    simp [String.append_assoc]]
  rw [String.data_append, h1]
  rfl

/-- The full extractor run over a list of rendered file groups. -/
theorem pmc_run_groups (gs : List (String × List NB)) : ∀ (st : PMCState),
    (∀ g ∈ gs, GrpOK g) →
    st.commentLines = [] →
    pmcFlush (pmcLoop (gs.flatMap (fun g => grpLines g.1 g.2)) st) =
      insertAll (pmcFlush st) (gs.flatMap grpPairs) := by
  induction gs with
  | nil =>
    intro st _ _
    rfl
  | cons g gs' ih =>
    intro st hok hbuf
    obtain ⟨cf, cls, cc, cl, acc⟩ := st
    have hcl : cl = [] := hbuf
    subst hcl
    obtain ⟨hfm, hnb⟩ := hok g (by simp)
    have hr : gs'.flatMap (fun g => grpLines g.1 g.2) = [] ∨
        strLeads "##" ((gs'.flatMap (fun g => grpLines g.1 g.2)).headD "") = true := by
      rcases gs' with _ | ⟨g2, gs''⟩
      · exact Or.inl rfl
      · right
        simpa [grpLines] using strLeads_hash2_header g2.1
    rw [List.flatMap_cons]
    rw [show grpLines g.1 g.2 ++ gs'.flatMap (fun g => grpLines g.1 g.2) =
        ("## [" ++ g.1 ++ "](" ++ g.1 ++ ")") :: "" ::
          (g.2.flatMap nbLines ++ gs'.flatMap (fun g => grpLines g.1 g.2)) from by
      simp [grpLines]]
    rw [pmcLoop]
    rw [pmc_fileheader _ _ g.1 cf cls cc acc hfm]
    rw [pmcLoop]
    rw [pmc_blank_notcollecting _ (some g.1) none [] acc]
    rw [pmc_run_nbs g.2 g.1 none acc _ hnb hr]
    rw [ih _ (fun x hx => hok x (by simp [hx])) rfl]
    rw [pmcFlush_empty, pmcFlush_empty]
    show insertAll (insertAll acc (grpPairs g)) (gs'.flatMap grpPairs) =
      insertAll acc (grpPairs g ++ gs'.flatMap grpPairs)
    exact (List.foldl_append _ _ _ _).symm

/-! ## The header matchers on rendered lines -/

theorem contains_of_mem {c : Char} {l : List Char} (h : c ∈ l) :
    l.contains c = true := by
  rw [List.contains_eq_any_beq, List.any_eq_true]
  exact ⟨c, h, by simp⟩

/-- `fileHeaderMatch` on a line `## [A]…`: the lazy capture stops at the
first `]`, so it is exactly `A` when `A` has none. -/
theorem fileHeaderMatch_shape2 (A X : List Char) (l : String)
    (hA : A ≠ []) (hbr : ']' ∉ A) (hlt : ∀ c ∈ A, isLineTerm c = false)
    (hd : l.data = '#' :: '#' :: ' ' :: '[' :: (A ++ ']' :: X)) :
    fileHeaderMatch l = some (String.mk A) := by
  have hws : (' ' :: '[' :: (A ++ ']' :: X)).takeWhile jsWsChar = [' '] := by
    rw [List.takeWhile_cons, if_pos (by decide), List.takeWhile_cons,
      if_neg (by decide)]
  have hall : ∀ c ∈ A, (!decide (c = ']')) = true := by
    intro c hc
    simp only [Bool.not_eq_eq_eq_not, Bool.not_true, decide_eq_false_iff_not]
    exact fun h => hbr (h ▸ hc)
  have hpre : (A ++ ']' :: X).takeWhile (fun c => !decide (c = ']')) = A := by
    rw [takeWhile_append_notHead (by decide) A X]
    have h5 := takeWhile_append_all hall []
    simpa using h5
  have hcont : (A ++ ']' :: X).contains ']' = true := contains_of_mem (by simp)
  have hallterm : ∀ c ∈ A, isLineTerm c = false := hlt
  unfold fileHeaderMatch
  rw [hd]
  simp [hws, hpre, hcont, hA]
  exact hallterm

theorem fileHeaderMatch_render (fp : String) (hne : fp ≠ "")
    (hbr : ']' ∉ fp.data) (hlt : ∀ ch ∈ fp.data, isLineTerm ch = false) :
    fileHeaderMatch ("## [" ++ fp ++ "](" ++ fp ++ ")") = some fp := by
  have e1 : ("## [" : String).data = ['#', '#', ' ', '['] := rfl
  have e2 : ("](" : String).data = [']', '('] := rfl
  have e3 : (")" : String).data = [')'] := rfl
  have hd : ("## [" ++ fp ++ "](" ++ fp ++ ")").data =
      '#' :: '#' :: ' ' :: '[' :: (fp.data ++ ']' :: '(' :: (fp.data ++ [')'])) := by
    simp [String.data_append, e1, e2, e3]
  have h2 := fileHeaderMatch_shape2 fp.data ('(' :: (fp.data ++ [')'])) _
    (string_data_ne_nil hne) hbr hlt hd
  rw [string_mk_data] at h2
  exact h2

theorem isLineTerm_of_digit {c : Char} (h : c.isDigit = true) :
    isLineTerm c = false := by
  rw [Char.isDigit, Bool.and_eq_true] at h
  have h1 := of_decide_eq_true h.1
  have h2 := of_decide_eq_true h.2
  have hv1 : ('0' : Char).val ≤ c.val := h1
  have hv2 : c.val ≤ ('9' : Char).val := h2
  have hn : c ≠ '\n' := by
    intro he
    subst he
    exact absurd hv1 (by decide)
  have hr : c ≠ '\r' := by
    intro he
    subst he
    exact absurd hv1 (by decide)
  have h28 : c ≠ '\u2028' := by
    intro he
    subst he
    exact absurd hv2 (by decide)
  have h29 : c ≠ '\u2029' := by
    intro he
    subst he
    exact absurd hv2 (by decide)
  simp [isLineTerm, hn, hr, h28, h29]

/-- `lineHeaderMatch` on a line `### [LS](Y)` with `S` made of digits
and dashes: the capture is exactly `S`. -/
theorem lineHeaderMatch_shape2 (S Y : List Char) (l : String)
    (hS : S ≠ []) (hSd : ∀ c ∈ S, (c.isDigit || decide (c = '-')) = true)
    (hY : ∀ c ∈ Y, isLineTerm c = false)
    (hd : l.data = '#' :: '#' :: '#' :: ' ' :: '[' :: 'L' ::
      (S ++ ']' :: '(' :: (Y ++ [')']))) :
    lineHeaderMatch l = some (String.mk S) := by
  have hws : (' ' :: '[' :: 'L' :: (S ++ ']' :: '(' :: (Y ++ [')']))).takeWhile
      jsWsChar = [' '] := by
    rw [List.takeWhile_cons, if_pos (by decide), List.takeWhile_cons,
      if_neg (by decide)]
  have hspec : (S ++ ']' :: '(' :: (Y ++ [')'])).takeWhile
      (fun c => c.isDigit || decide (c = '-')) = S := by
    rw [takeWhile_append_notHead (by decide) S _]
    have h5 := takeWhile_append_all hSd []
    simpa using h5
  have hdrop : (S ++ ']' :: '(' :: (Y ++ [')'])).drop S.length =
      ']' :: '(' :: (Y ++ [')']) := List.drop_left _ _
  have hcont : (Y ++ [')']).contains ')' = true := contains_of_mem (by simp)
  have hallterm : ∀ c ∈ (Y ++ [')']).takeWhile (fun c => !decide (c = ')')),
      isLineTerm c = false := by
    intro c hc
    have hmem := List.takeWhile_subset _ hc
    rcases List.mem_append.1 hmem with hmem | hmem
    · exact hY c hmem
    · rw [List.mem_singleton] at hmem
      subst hmem
      rfl
  unfold lineHeaderMatch
  rw [hd]
  simp [hws, hspec, hdrop, hcont, hS]
  exact hallterm

/-- The line spec capture of the rendered range heading. -/
def specCapture (n : Note) : String :=
  if n.startLine = n.endLine then Nat.repr n.startLine
  else Nat.repr n.startLine ++ "-" ++ Nat.repr n.endLine

/-- The heading line the renderer emits for one note. -/
def noteHeading (filePath : String) (n : Note) : String :=
  "### [" ++
    (if n.startLine = n.endLine then "L" ++ Nat.repr n.startLine
     else "L" ++ Nat.repr n.startLine ++ "-" ++ Nat.repr n.endLine) ++
    "](" ++ filePath ++ "#L" ++ Nat.repr n.startLine ++ ")"

theorem specCapture_all_digit_dash (n : Note) :
    ∀ c ∈ (specCapture n).data, (c.isDigit || decide (c = '-')) = true := by
  intro c hc
  unfold specCapture at hc
  by_cases h : n.startLine = n.endLine
  · rw [if_pos h] at hc
    rw [repr_all_digit _ c hc]
    rfl
  · rw [if_neg h] at hc
    have hd : (Nat.repr n.startLine ++ "-" ++ Nat.repr n.endLine).data =
        (Nat.repr n.startLine).data ++ '-' :: (Nat.repr n.endLine).data := by
      simp [String.data_append]
    rw [hd] at hc
    rcases List.mem_append.1 hc with hc | hc
    · rw [repr_all_digit _ c hc]
      rfl
    · rcases List.mem_cons.1 hc with hc | hc
      · subst hc
        rfl
      · rw [repr_all_digit _ c hc]
        rfl

theorem specCapture_ne_nil (n : Note) : (specCapture n).data ≠ [] := by
  unfold specCapture
  by_cases h : n.startLine = n.endLine
  · rw [if_pos h]
    exact repr_ne_nil _
  · rw [if_neg h]
    have hd : (Nat.repr n.startLine ++ "-" ++ Nat.repr n.endLine).data =
        (Nat.repr n.startLine).data ++ '-' :: (Nat.repr n.endLine).data := by
      simp [String.data_append]
    rw [hd]
    intro h2
    rcases List.append_eq_nil.1 h2 with ⟨_, h3⟩
    cases h3

theorem noteHeading_data (fp : String) (n : Note) :
    (noteHeading fp n).data =
      '#' :: '#' :: '#' :: ' ' :: '[' :: 'L' ::
        ((specCapture n).data ++ ']' :: '(' ::
          ((fp.data ++ '#' :: 'L' :: (Nat.repr n.startLine).data) ++ [')'])) := by
  have e1 : ("### [" : String).data = ['#', '#', '#', ' ', '['] := rfl
  have e2 : ("](" : String).data = [']', '('] := rfl
  have e3 : (")" : String).data = [')'] := rfl
  have e4 : ("L" : String).data = ['L'] := rfl
  have e5 : ("#L" : String).data = ['#', 'L'] := rfl
  have e6 : ("-" : String).data = ['-'] := rfl
  unfold noteHeading specCapture
  by_cases h : n.startLine = n.endLine
  · rw [if_pos h, if_pos h]
    simp [String.data_append, e1, e2, e3, e4, e5]
  · rw [if_neg h, if_neg h]
    simp [String.data_append, e1, e2, e3, e4, e5, e6]

/-- The rendered note heading's capture is the rendered line spec. -/
theorem lineHeaderMatch_noteHeading (fp : String) (n : Note)
    (hlt : ∀ ch ∈ fp.data, isLineTerm ch = false) :
    lineHeaderMatch (noteHeading fp n) = some (specCapture n) := by
  have hY : ∀ c ∈ fp.data ++ '#' :: 'L' :: (Nat.repr n.startLine).data,
      isLineTerm c = false := by
    intro c hc
    rcases List.mem_append.1 hc with hc | hc
    · exact hlt c hc
    · rcases List.mem_cons.1 hc with hc | hc
      · subst hc
        rfl
      · rcases List.mem_cons.1 hc with hc | hc
        · subst hc
          rfl
        · exact isLineTerm_of_digit (repr_all_digit _ c hc)
  have h2 := lineHeaderMatch_shape2 (specCapture n).data
    (fp.data ++ '#' :: 'L' :: (Nat.repr n.startLine).data) (noteHeading fp n)
    (specCapture_ne_nil n) (specCapture_all_digit_dash n) hY
    (noteHeading_data fp n)
  rw [string_mk_data] at h2
  exact h2

theorem fileHeaderMatch_noteHeading (fp : String) (n : Note) :
    fileHeaderMatch (noteHeading fp n) = none :=
  fileHeaderMatch_of_hash3 (noteHeading_data fp n)

theorem strLeads_hash2_noteHeading (fp : String) (n : Note) :
    strLeads "##" (noteHeading fp n) = true :=
  strLeads_hash2_of_data (noteHeading_data fp n)

/-! ## Shape of the rendered document's line list -/

theorem jsSplitNL_single {l : String} (h : '\n' ∉ l.data) : jsSplitNL l = [l] := by
  rw [jsSplitNL, splitNL_no_nl h]
  simp [string_mk_data]

theorem flatMap_jsSplitNL_id {L : List String} (h : ∀ l ∈ L, '\n' ∉ l.data) :
    L.flatMap jsSplitNL = L := by
  induction L with
  | nil => rfl
  | cons x t ih =>
    rw [List.flatMap_cons, jsSplitNL_single (h x (by simp)),
      ih (fun l hl => h l (by simp [hl]))]
    rfl

theorem no_nl_of_lineTerm_false {L : List Char}
    (h : ∀ c ∈ L, isLineTerm c = false) : '\n' ∉ L := by
  intro hm
  have h2 := h _ hm
  rw [show isLineTerm '\n' = true from rfl] at h2
  cases h2

theorem noteHeading_no_lineTerm (fp : String) (n : Note)
    (hfp : ∀ ch ∈ fp.data, isLineTerm ch = false) :
    ∀ c ∈ (noteHeading fp n).data, isLineTerm c = false := by
  have hT : ∀ c ∈ (specCapture n).data ++ ']' :: '(' ::
      ((fp.data ++ '#' :: 'L' :: (Nat.repr n.startLine).data) ++ [')']),
      isLineTerm c = false := by
    intro c hc
    rcases List.mem_append.1 hc with hc | hc
    · have h2 := specCapture_all_digit_dash n c hc
      rw [Bool.or_eq_true] at h2
      rcases h2 with hdig | hdash
      · exact isLineTerm_of_digit hdig
      · have h3 : c = '-' := of_decide_eq_true hdash
        subst h3
        rfl
    · rcases List.mem_cons.1 hc with hc | hc
      · subst hc
        rfl
      rcases List.mem_cons.1 hc with hc | hc
      · subst hc
        rfl
      rcases List.mem_append.1 hc with hc | hc
      · rcases List.mem_append.1 hc with hc | hc
        · exact hfp c hc
        · rcases List.mem_cons.1 hc with hc | hc
          · subst hc
            rfl
          rcases List.mem_cons.1 hc with hc | hc
          · subst hc
            rfl
          · exact isLineTerm_of_digit (repr_all_digit _ c hc)
      · rw [List.mem_singleton] at hc
        subst hc
        rfl
  intro c hc
  rw [noteHeading_data] at hc
  rcases List.mem_cons.1 hc with hc | hc
  · subst hc; rfl
  rcases List.mem_cons.1 hc with hc | hc
  · subst hc; rfl
  rcases List.mem_cons.1 hc with hc | hc
  · subst hc; rfl
  rcases List.mem_cons.1 hc with hc | hc
  · subst hc; rfl
  rcases List.mem_cons.1 hc with hc | hc
  · subst hc; rfl
  rcases List.mem_cons.1 hc with hc | hc
  · subst hc; rfl
  exact hT c hc

theorem fileHeader_data (fp : String) :
    ("## [" ++ fp ++ "](" ++ fp ++ ")").data =
      '#' :: '#' :: ' ' :: '[' :: (fp.data ++ ']' :: '(' :: (fp.data ++ [')'])) := by
  have e1 : ("## [" : String).data = ['#', '#', ' ', '['] := rfl
  have e2 : ("](" : String).data = [']', '('] := rfl
  have e3 : (")" : String).data = [')'] := rfl
  simp [String.data_append, e1, e2, e3]

theorem fileHeader_no_lineTerm (fp : String)
    (hfp : ∀ ch ∈ fp.data, isLineTerm ch = false) :
    ∀ c ∈ ("## [" ++ fp ++ "](" ++ fp ++ ")").data, isLineTerm c = false := by
  intro c hc
  rw [fileHeader_data] at hc
  rcases List.mem_cons.1 hc with hc | hc
  · subst hc; rfl
  rcases List.mem_cons.1 hc with hc | hc
  · subst hc; rfl
  rcases List.mem_cons.1 hc with hc | hc
  · subst hc; rfl
  rcases List.mem_cons.1 hc with hc | hc
  · subst hc; rfl
  rcases List.mem_append.1 hc with hc | hc
  · exact hfp c hc
  rcases List.mem_cons.1 hc with hc | hc
  · subst hc; rfl
  rcases List.mem_cons.1 hc with hc | hc
  · subst hc; rfl
  rcases List.mem_append.1 hc with hc | hc
  · exact hfp c hc
  · rw [List.mem_singleton] at hc
    subst hc
    rfl

/-! ## The code preview lines are quote lines without newlines -/

theorem generateCodePreview_quote (fileLines : List String) (s e : Nat) :
    ∀ l ∈ generateCodePreview fileLines s e, strLeads "> " l = true := by
  intro l hl
  unfold generateCodePreview at hl
  split at hl
  · cases hl
  · simp only [List.mem_map] at hl
    obtain ⟨t, _, rfl⟩ := hl
    show leadsWith ['>', ' '] ('>' :: ' ' :: _) = true
    rw [leadsWith, leadsWith]
    simp [leadsWith]

theorem removeIndentGo_subset (cs : List Char) : ∀ (a b : Nat) (c : Char),
    c ∈ removeIndentGo cs a b → c ∈ cs := by
  induction cs with
  | nil =>
    intro a b c h
    cases h
  | cons x r ih =>
    intro a b c h
    rw [removeIndentGo] at h
    by_cases h1 : a < b
    · rw [if_pos h1] at h
      by_cases hx : x = ' '
      · rw [if_pos hx] at h
        exact List.mem_cons_of_mem x (ih _ _ c h)
      · rw [if_neg hx] at h
        by_cases ht : x = '\t'
        · rw [if_pos ht] at h
          exact List.mem_cons_of_mem x (ih _ _ c h)
        · rw [if_neg ht] at h
          exact h
    · rw [if_neg h1] at h
      exact h

theorem removeIndent_no_nl {line : String} (h : '\n' ∉ line.data) (k : Nat) :
    '\n' ∉ (removeIndent line k).data := by
  unfold removeIndent
  split
  · exact h
  · intro hm
    exact h (removeIndentGo_subset _ _ _ _ hm)

theorem generateCodePreview_no_nl (fileLines : List String) (s e : Nat)
    (hfl : ∀ l ∈ fileLines, '\n' ∉ l.data) :
    ∀ l ∈ generateCodePreview fileLines s e, '\n' ∉ l.data := by
  intro l hl
  unfold generateCodePreview at hl
  split at hl
  · cases hl
  · simp only [List.mem_map] at hl
    obtain ⟨t, ht, rfl⟩ := hl
    have hcont : '\n' ∉ (t.2 : String).data := by
      simp only [List.mem_filterMap] at ht
      obtain ⟨lineNum, _, heq⟩ := ht
      by_cases h0 : lineNum = 0
      · rw [if_pos h0] at heq
        cases heq
      · rw [if_neg h0] at heq
        rcases hg : fileLines.get? (lineNum - 1) with _ | content
        · rw [hg] at heq
          cases heq
        · rw [hg] at heq
          have h2 : (lineNum, content) = t := by simpa using heq
          have h3 : content ∈ fileLines := List.get?_mem hg
          rw [← h2]
          exact hfl content h3
    intro hm
    have hm2 : ('\n' : Char) ∈ ('>' :: ' ' ::
        (padStartChars (Nat.repr t.1).data
            ((Nat.repr (Nat.min e fileLines.length)).length) ++
          ':' :: ' ' :: (removeIndent t.2
            (calculateMinimumIndent (List.map (fun t => t.2)
              ((List.range' s (Nat.min e fileLines.length + 1 - s)).filterMap
                (fun lineNum =>
                  if lineNum = 0 then none
                  else (fileLines.get? (lineNum - 1)).map
                    (fun content => (lineNum, content))))))).data) : List Char) := hm
    rcases List.mem_cons.1 hm2 with hx | hx
    · cases hx
    rcases List.mem_cons.1 hx with hx | hx
    · cases hx
    rcases List.mem_append.1 hx with hx | hx
    · unfold padStartChars at hx
      rcases List.mem_append.1 hx with hx | hx
      · have := List.eq_of_mem_replicate hx
        cases this
      · have h4 := repr_all_digit t.1 '\n' hx
        cases h4
    rcases List.mem_cons.1 hx with hx | hx
    · cases hx
    rcases List.mem_cons.1 hx with hx | hx
    · cases hx
    · exact removeIndent_no_nl hcont _ hx

/-! ## The rendered blocks as abstract note blocks -/

/-- The note block the renderer emits for one note. -/
def noteNB (fp : String) (fileLines : List String) (ic : Bool) (n : Note) : NB :=
  ⟨noteHeading fp n, specCapture n,
   "" :: (if ic ∧ fileLines ≠ [] then
       (if generateCodePreview fileLines n.startLine n.endLine ≠ [] then
         generateCodePreview fileLines n.startLine n.endLine ++ [""] else [])
     else []),
   n.comment⟩

theorem fm_fm {α β γ : Type _} (l : List α) (f : α → List β) (g : β → List γ) :
    (l.flatMap f).flatMap g = l.flatMap (fun x => (f x).flatMap g) := by
  induction l with
  | nil => rfl
  | cons x t ih => simp [ih]

theorem flatMap_congr {α β : Type _} {l : List α} {f g : α → List β}
    (h : ∀ x ∈ l, f x = g x) : l.flatMap f = l.flatMap g := by
  induction l with
  | nil => rfl
  | cons x t ih =>
    rw [List.flatMap_cons, List.flatMap_cons, h x (by simp),
      ih (fun y hy => h y (by simp [hy]))]

theorem noteSections_lines (fp : String) (fileLines : List String) (ic : Bool)
    (n : Note) (hfp : ∀ ch ∈ fp.data, isLineTerm ch = false)
    (hfl : ∀ l ∈ fileLines, '\n' ∉ l.data) :
    (noteSections fp fileLines ic n).flatMap jsSplitNL =
      nbLines (noteNB fp fileLines ic n) := by
  have hhead : jsSplitNL (noteHeading fp n) = [noteHeading fp n] :=
    jsSplitNL_single (no_nl_of_lineTerm_false (noteHeading_no_lineTerm fp n hfp))
  have key : ∀ P : List String, (∀ l ∈ P, '\n' ∉ l.data) →
      (noteHeading fp n :: "" :: (P ++ [n.comment, ""])).flatMap jsSplitNL =
        noteHeading fp n :: ("" :: P) ++ jsSplitNL n.comment ++ [""] := by
    intro P hPn
    rw [List.flatMap_cons, List.flatMap_cons, List.flatMap_append,
      flatMap_jsSplitNL_id hPn, hhead]
    rw [List.flatMap_cons, List.flatMap_cons, List.flatMap_nil]
    rw [show jsSplitNL "" = [""] from rfl]
    simp
  have hPif : ∀ l ∈ (if ic ∧ fileLines ≠ [] then
      (if generateCodePreview fileLines n.startLine n.endLine ≠ [] then
        generateCodePreview fileLines n.startLine n.endLine ++ [""] else [])
      else []), '\n' ∉ l.data := by
    intro l hl
    split at hl
    · split at hl
      · rcases List.mem_append.1 hl with hl | hl
        · exact generateCodePreview_no_nl fileLines _ _ hfl l hl
        · rw [List.mem_singleton] at hl
          subst hl
          intro hm
          cases hm
      · cases hl
    · cases hl
  exact key _ hPif

/-- The file lines the renderer reads for one file (empty on a failed
read or with code previews off). -/
def fileLinesOf (fl : String → Option String) (ic : Bool) (fp : String) :
    List String :=
  if ic then
    match fl fp with
    | some content => jsSplitNL content
    | none => []
  else []

/-- The note blocks of one file group, in render order. -/
def fileNBs (notes : List Note) (fl : String → Option String) (ic : Bool)
    (fp : String) : List NB :=
  (sortNotes (notes.filter (fun n => n.filePath == fp))).map
    (noteNB fp (fileLinesOf fl ic fp) ic)

theorem fileLinesOf_no_nl (fl : String → Option String) (ic : Bool) (fp : String) :
    ∀ l ∈ fileLinesOf fl ic fp, '\n' ∉ l.data := by
  intro l hl
  unfold fileLinesOf at hl
  split at hl
  · rcases hg : fl fp with _ | content <;> simp only [hg] at hl
    · cases hl
    · simp only [jsSplitNL, List.mem_map] at hl
      obtain ⟨piece, hp, rfl⟩ := hl
      exact mem_splitNL_no_nl content.data piece hp
  · cases hl

theorem fileSections_lines (notes : List Note) (fl : String → Option String)
    (ic : Bool) (fp : String)
    (hfp : ∀ ch ∈ fp.data, isLineTerm ch = false) :
    (fileSections notes fl ic fp).flatMap jsSplitNL =
      grpLines fp (fileNBs notes fl ic fp) := by
  have hhead : jsSplitNL ("## [" ++ fp ++ "](" ++ fp ++ ")") =
      ["## [" ++ fp ++ "](" ++ fp ++ ")"] :=
    jsSplitNL_single (no_nl_of_lineTerm_false (fileHeader_no_lineTerm fp hfp))
  show (("## [" ++ fp ++ "](" ++ fp ++ ")") :: "" ::
      (sortNotes (notes.filter (fun n => n.filePath == fp))).flatMap
        (noteSections fp (fileLinesOf fl ic fp) ic)).flatMap jsSplitNL = _
  rw [List.flatMap_cons, List.flatMap_cons, hhead]
  have h2 : ((sortNotes (notes.filter (fun n => n.filePath == fp))).flatMap
      (noteSections fp (fileLinesOf fl ic fp) ic)).flatMap jsSplitNL =
      (fileNBs notes fl ic fp).flatMap nbLines := by
    rw [fm_fm]
    unfold fileNBs
    rw [List.flatMap_map]
    exact flatMap_congr (fun n _ =>
      noteSections_lines fp (fileLinesOf fl ic fp) ic n hfp
        (fileLinesOf_no_nl fl ic fp))
  rw [h2]
  rfl

/-- Side conditions on a stored file path under which the rendered file
heading parses back to exactly that path. -/
def goodPath (fp : String) : Prop :=
  fp ≠ "" ∧ ']' ∉ fp.data ∧ ∀ ch ∈ fp.data, isLineTerm ch = false

/-- Side conditions on a stored comment text under which the rendered
body lines are collected verbatim by the extractor. -/
def goodBody (t : String) : Prop :=
  jsTrim t = t ∧ t ≠ "" ∧
  ∀ l ∈ jsSplitNL t, strLeads "##" l = false ∧ strLeads "> " l = false

theorem noteNB_ok (fp : String) (fileLines : List String) (ic : Bool) (n : Note)
    (hfp : goodPath fp) (hb : goodBody n.comment) :
    NBok (noteNB fp fileLines ic n) := by
  obtain ⟨hne, hbr, hlt⟩ := hfp
  obtain ⟨htr, hcne, hlines⟩ := hb
  refine ⟨fileHeaderMatch_noteHeading fp n, lineHeaderMatch_noteHeading fp n hlt,
    strLeads_hash2_noteHeading fp n, ?_, htr, hcne, hlines⟩
  intro l hl
  rcases List.mem_cons.1 hl with hl | hl
  · exact Or.inr hl
  · split at hl
    · split at hl
      · rcases List.mem_append.1 hl with hl | hl
        · exact Or.inl (generateCodePreview_quote _ _ _ l hl)
        · rw [List.mem_singleton] at hl
          exact Or.inr hl
      · cases hl
    · cases hl

theorem grpOK_of (notes : List Note) (fl : String → Option String) (ic : Bool)
    (fp : String) (hfp : goodPath fp)
    (hgood : ∀ n ∈ notes, goodBody n.comment) :
    GrpOK (fp, fileNBs notes fl ic fp) := by
  obtain ⟨hne, hbr, hlt⟩ := hfp
  constructor
  · exact fileHeaderMatch_render fp hne hbr hlt
  · intro nb hnb
    unfold fileNBs at hnb
    rw [List.mem_map] at hnb
    obtain ⟨n, hn, rfl⟩ := hnb
    have hn2 : n ∈ notes := by
      have h3 : n ∈ notes.filter (fun n => n.filePath == fp) := by
        unfold sortNotes at hn
        exact List.mem_mergeSort.1 hn
      exact List.mem_of_mem_filter h3
    exact noteNB_ok fp _ ic n ⟨hne, hbr, hlt⟩ (hgood n hn2)

/-! ## The popped trailing blank does not change the extraction -/

theorem pmcLoop_append_blank (L : List String) : ∀ st : PMCState,
    pmcLoop (L ++ [""]) st = pmcStep (pmcLoop L st) "" "" := by
  induction L with
  | nil =>
    intro st
    rfl
  | cons l t ih =>
    intro st
    rw [List.cons_append, pmcLoop, pmcLoop]
    have hhd : (t ++ [""]).headD "" = t.headD "" := by
      rcases t with _ | ⟨x, t'⟩ <;> rfl
    rw [hhd, ih]

theorem pmcFlush_step_blank (st : PMCState) :
    pmcFlush (pmcStep st "" "") = pmcFlush st := by
  obtain ⟨cf, cls, cc, cl, acc⟩ := st
  cases cc with
  | false => rw [pmc_blank_notcollecting]
  | true =>
    rcases hcl : cl with _ | ⟨x, cl'⟩
    · rw [pmc_blank_collecting _ _ _ _ strLeads_hash2_empty]
    · rw [pmc_blank_push "" cf cls (x :: cl') acc (by simp) strLeads_hash2_empty]
      unfold pmcFlush
      rcases cf with _ | f <;> rcases cls with _ | s
      · rfl
      · rfl
      · rfl
      · show (if (x :: cl') ++ [""] ≠ [] then
            mapSet acc (f ++ "#L" ++ s) (jsTrim (joinLines ((x :: cl') ++ [""])))
          else acc) =
          (if x :: cl' ≠ [] then
            mapSet acc (f ++ "#L" ++ s) (jsTrim (joinLines (x :: cl')))
          else acc)
        rw [if_pos (by simp), if_pos (by simp)]
        rw [jsTrim_joinLines_blank (by simp : (x :: cl') ≠ [])]

theorem pmc_pop_irrelevant (sections : List String) (st : PMCState) :
    pmcFlush (pmcLoop ((if sections.getLast? = some "" then sections.dropLast
      else sections).flatMap jsSplitNL) st) =
      pmcFlush (pmcLoop (sections.flatMap jsSplitNL) st) := by
  by_cases h : sections.getLast? = some ""
  · rw [if_pos h]
    have hne : sections ≠ [] := by
      intro h0
      rw [h0] at h
      cases h
    have hlast : sections.getLast hne = "" := by
      have h2 := List.getLast?_eq_getLast sections hne
      rw [h] at h2
      exact (Option.some_inj.1 h2).symm
    conv_rhs => rw [← List.dropLast_concat_getLast hne]
    rw [hlast, List.flatMap_append]
    rw [show ([""] : List String).flatMap jsSplitNL = [""] from rfl]
    rw [pmcLoop_append_blank, pmcFlush_step_blank]
  · rw [if_neg h]

theorem jsSplitNL_joinLines (L : List String) (h : L ≠ []) :
    jsSplitNL (joinLines L) = L.flatMap jsSplitNL := by
  show (splitNL (String.mk (joinNL (L.map String.data))).data).map String.mk = _
  rw [show (String.mk (joinNL (L.map String.data))).data =
    joinNL (L.map String.data) from rfl]
  rw [splitNL_joinNL _ (by simpa using h)]
  rw [List.flatMap_map, List.map_flatMap]
  rfl

/-! ## The extractor's map over a rendered document -/

/-- Core run: extracting the joined (and popped) sections of a rendered
group list inserts exactly the note pairs, in render order. -/
theorem pmc_render_core (notes : List Note) (fl : String → Option String)
    (ic : Bool) (fps : List String)
    (hfps : fps ≠ [])
    (hfpgood : ∀ fp ∈ fps, goodPath fp)
    (hbodies : ∀ n ∈ notes, goodBody n.comment) :
    parseMarkdownComments (joinLines
      (if (fps.flatMap (fileSections notes fl ic)).getLast? = some ""
       then (fps.flatMap (fileSections notes fl ic)).dropLast
       else fps.flatMap (fileSections notes fl ic))) =
      insertAll []
        (fps.flatMap (fun fp => (fileNBs notes fl ic fp).map (nbPair fp))) := by
  have hsecshape : ∃ a L0, fps.flatMap (fileSections notes fl ic) = a :: "" :: L0 := by
    rcases hf : fps with _ | ⟨g, gs⟩
    · exact absurd hf hfps
    · rw [List.flatMap_cons]
      exact ⟨_, _, rfl⟩
  obtain ⟨a, L0, hshape⟩ := hsecshape
  have hsec'ne : (if (fps.flatMap (fileSections notes fl ic)).getLast? = some ""
      then (fps.flatMap (fileSections notes fl ic)).dropLast
      else fps.flatMap (fileSections notes fl ic)) ≠ [] := by
    split
    · rw [hshape]
      simp
    · rw [hshape]
      simp
  show pmcFlush (pmcLoop (jsSplitNL (joinLines _)) ⟨none, none, false, [], []⟩) = _
  rw [jsSplitNL_joinLines _ hsec'ne]
  rw [pmc_pop_irrelevant]
  rw [fm_fm]
  rw [flatMap_congr (fun fp hfp =>
    fileSections_lines notes fl ic fp (hfpgood fp hfp).2.2)]
  have hgs : fps.flatMap (fun fp => grpLines fp (fileNBs notes fl ic fp)) =
      (fps.map (fun fp => (fp, fileNBs notes fl ic fp))).flatMap
        (fun g => grpLines g.1 g.2) := by
    rw [List.flatMap_map]
  rw [hgs]
  rw [pmc_run_groups _ _ ?gok rfl]
  case gok =>
    intro g hg
    rw [List.mem_map] at hg
    obtain ⟨fp, hfp, rfl⟩ := hg
    exact grpOK_of notes fl ic fp (hfpgood fp hfp) hbodies
  rw [show pmcFlush ⟨none, none, false, [], []⟩ = [] from rfl]
  rw [List.flatMap_map]
  rfl

/-- The extracted map of the full rendered document. -/
theorem parseMarkdownComments_render (notes : List Note)
    (fl : String → Option String) (ic : Bool)
    (hne : notes ≠ [])
    (hpaths : ∀ n ∈ notes, goodPath n.filePath)
    (hbodies : ∀ n ∈ notes, goodBody n.comment) :
    parseMarkdownComments (generateEnhancedMarkdown notes fl ic) =
      insertAll []
        ((((notes.map (fun n => n.filePath)).dedup).mergeSort
            (fun a b => a ≤ b)).flatMap
          (fun fp => (fileNBs notes fl ic fp).map (nbPair fp))) := by
  have hdoc : generateEnhancedMarkdown notes fl ic =
      joinLines
        (if ((((notes.map (fun n => n.filePath)).dedup).mergeSort
              (fun a b => a ≤ b)).flatMap (fileSections notes fl ic)).getLast? =
            some ""
         then ((((notes.map (fun n => n.filePath)).dedup).mergeSort
              (fun a b => a ≤ b)).flatMap (fileSections notes fl ic)).dropLast
         else (((notes.map (fun n => n.filePath)).dedup).mergeSort
              (fun a b => a ≤ b)).flatMap (fileSections notes fl ic)) := by
    unfold generateEnhancedMarkdown
    rw [if_neg hne]
    rfl
  have hfps : (((notes.map (fun n => n.filePath)).dedup).mergeSort
      (fun a b => a ≤ b)) ≠ [] := by
    intro h0
    rcases List.exists_mem_of_ne_nil notes hne with ⟨n0, hn0⟩
    have h1 : n0.filePath ∈ (notes.map (fun n => n.filePath)).dedup := by
      rw [List.mem_dedup]
      exact List.mem_map.2 ⟨n0, hn0, rfl⟩
    have h2 : n0.filePath ∈ ((notes.map (fun n => n.filePath)).dedup).mergeSort
        (fun a b => a ≤ b) := List.mem_mergeSort.2 h1
    rw [h0] at h2
    cases h2
  have hfpgood : ∀ fp ∈ (((notes.map (fun n => n.filePath)).dedup).mergeSort
      (fun a b => a ≤ b)), goodPath fp := by
    intro fp hfp
    have h1 := List.mem_dedup.1 (List.mem_mergeSort.1 hfp)
    rw [List.mem_map] at h1
    obtain ⟨n, hn, rfl⟩ := h1
    exact hpaths n hn
  rw [hdoc]
  exact pmc_render_core notes fl ic _ hfps hfpgood hbodies

/-! ## Looking a note's own key up in the extracted map -/

theorem mapGet_insertAll_not_mem (ps : List (String × String)) :
    ∀ (a : List (String × String)) (k : String), k ∉ ps.map Prod.fst →
    mapGet (insertAll a ps) k = mapGet a k := by
  induction ps with
  | nil =>
    intro a k _
    rfl
  | cons p ps' ih =>
    intro a k hk
    rw [List.map_cons] at hk
    simp only [List.mem_cons, not_or] at hk
    show mapGet (insertAll (mapSet a p.1 p.2) ps') k = _
    rw [ih _ k hk.2, mapGet_mapSet, if_neg hk.1]

theorem mapGet_insertAll_found (pre post : List (String × String)) (k v : String)
    (a : List (String × String)) (hk : k ∉ post.map Prod.fst) :
    mapGet (insertAll a (pre ++ (k, v) :: post)) k = some v := by
  have h1 : insertAll a (pre ++ (k, v) :: post) =
      insertAll (mapSet (insertAll a pre) k v) post := by
    unfold insertAll
    rw [List.foldl_append]
    rfl
  rw [h1, mapGet_insertAll_not_mem post _ k hk, mapGet_mapSet, if_pos rfl]

/-! ## The rendered note list is a permutation of the store -/

theorem map_congr_mem {α β : Type _} {l : List α} {f g : α → β}
    (h : ∀ a ∈ l, f a = g a) : l.map f = l.map g := by
  induction l with
  | nil => rfl
  | cons x t ih =>
    rw [List.map_cons, List.map_cons, h x (by simp),
      ih (fun y hy => h y (by simp [hy]))]

theorem flatMap_perm_congr {α β : Type _} {l : List α} {f g : α → List β}
    (h : ∀ x ∈ l, (f x).Perm (g x)) : (l.flatMap f).Perm (l.flatMap g) := by
  induction l with
  | nil => exact List.Perm.refl _
  | cons x t ih =>
    rw [List.flatMap_cons, List.flatMap_cons]
    exact (h x (by simp)).append (ih (fun y hy => h y (by simp [hy])))

theorem filter_groups_perm : ∀ (fps : List String) (notes : List Note),
    fps.Nodup → (∀ n ∈ notes, n.filePath ∈ fps) →
    (fps.flatMap (fun fp => notes.filter (fun n => n.filePath == fp))).Perm
      notes := by
  intro fps
  induction fps with
  | nil =>
    intro notes _ hcov
    rcases hn : notes with _ | ⟨n, t⟩
    · simp
    · exact absurd (hcov n (by rw [hn]; simp)) (List.not_mem_nil _)
  | cons f fps' ih =>
    intro notes hnd hcov
    obtain ⟨hf, hnd'⟩ := List.nodup_cons.1 hnd
    rw [List.flatMap_cons]
    have hsub : ∀ fp ∈ fps', notes.filter (fun n => n.filePath == fp) =
        (notes.filter (fun n => !(n.filePath == f))).filter
          (fun n => n.filePath == fp) := by
      intro fp hfp
      rw [List.filter_filter]
      apply List.filter_congr
      intro n _
      by_cases hn : n.filePath = fp
      · have hnf : (n.filePath == f) = false := by
          rw [beq_eq_false_iff_ne]
          intro h0
          apply hf
          have hffp : f = fp := by
            rw [← h0]
            exact hn
          rw [hffp]
          exact hfp
        rw [hn] at hnf ⊢
        simp [hnf]
      · have h2 : (n.filePath == fp) = false := by
          rw [beq_eq_false_iff_ne]
          exact hn
        simp [h2]
    have hcov' : ∀ n ∈ notes.filter (fun n => !(n.filePath == f)),
        n.filePath ∈ fps' := by
      intro n hn
      have h1 := List.mem_of_mem_filter hn
      have h2 := List.of_mem_filter hn
      have h3 := hcov n h1
      rcases List.mem_cons.1 h3 with h4 | h4
      · rw [h4] at h2
        simp at h2
      · exact h4
    have ih2 := ih (notes.filter (fun n => !(n.filePath == f))) hnd' hcov'
    have hflat : fps'.flatMap (fun fp => notes.filter (fun n => n.filePath == fp)) =
        fps'.flatMap (fun fp => (notes.filter (fun n => !(n.filePath == f))).filter
          (fun n => n.filePath == fp)) :=
      flatMap_congr hsub
    rw [hflat]
    exact (List.Perm.append_left _ ih2).trans (List.filter_append_perm _ notes)

/-- The key and value one note contributes to the extracted map. -/
def noteKey (n : Note) : String := n.filePath ++ "#L" ++ specCapture n

def noteKV (n : Note) : String × String := (noteKey n, n.comment)

theorem noteKey_toNote (c : ReviewComment) : noteKey (toNote c) = reviewKey c := rfl

theorem pairs_eq (notes : List Note) (fl : String → Option String) (ic : Bool)
    (fps : List String) :
    fps.flatMap (fun fp => (fileNBs notes fl ic fp).map (nbPair fp)) =
      (fps.flatMap (fun fp =>
        sortNotes (notes.filter (fun n => n.filePath == fp)))).map noteKV := by
  rw [List.map_flatMap]
  apply flatMap_congr
  intro fp _
  unfold fileNBs
  rw [List.map_map]
  apply map_congr_mem
  intro n hn
  have hfp : n.filePath = fp := by
    have h1 : n ∈ notes.filter (fun n => n.filePath == fp) := by
      unfold sortNotes at hn
      exact List.mem_mergeSort.1 hn
    have h2 := List.of_mem_filter h1
    exact eq_of_beq h2
  show (fp ++ "#L" ++ specCapture n, n.comment) = (n.filePath ++ "#L" ++ specCapture n, n.comment)
  rw [hfp]

/-! ## C2: the rendered round trip reports nothing to do, and returns
an empty update list -/

/-- C2 -- counterexample.  Rendering one annotation, extracting the
unedited document and reconciling gives `changed = false` -- but the
`updated` list is empty, not the canonical singleton: the claim's
"updated annotation list equal to the original canonical list" fails. -/
theorem c2_counterexample :
    applyMarkdownChanges [sampleRC]
        (mapGet (parseMarkdownComments
          (generateEnhancedMarkdown [toNote sampleRC] (fun _ => none) true))) =
      ([], false) ∧
    ([sampleRC] : List ReviewComment) ≠ [] := by
  have hsort : sortNotes [toNote sampleRC] = [toNote sampleRC] :=
    List.mergeSort_singleton _
  have hfs : fileSections [toNote sampleRC] (fun _ => none) true "f" =
      ["## [f](f)", "", "### [L1](f#L1)", "", "a", ""] := by
    unfold fileSections
    show ("## [" ++ "f" ++ "](" ++ "f" ++ ")") :: "" ::
        (sortNotes ([toNote sampleRC].filter (fun n => n.filePath == "f"))).flatMap
          (noteSections "f" [] true) = _
    rw [show ([toNote sampleRC].filter (fun n => n.filePath == "f")) =
      [toNote sampleRC] from rfl, hsort]
    rfl
  have hdoc : generateEnhancedMarkdown [toNote sampleRC] (fun _ => none) true =
      "## [f](f)\n\n### [L1](f#L1)\n\na" := by
    unfold generateEnhancedMarkdown
    rw [if_neg (by simp)]
    show String.mk (joinNL ((if ((List.mergeSort ["f"] (fun a b => a ≤ b)).flatMap
          (fileSections [toNote sampleRC] (fun _ => none) true)).getLast? = some ""
        then ((List.mergeSort ["f"] (fun a b => a ≤ b)).flatMap
          (fileSections [toNote sampleRC] (fun _ => none) true)).dropLast
        else (List.mergeSort ["f"] (fun a b => a ≤ b)).flatMap
          (fileSections [toNote sampleRC] (fun _ => none) true)).map String.data)) = _
    rw [List.mergeSort_singleton, List.flatMap_cons, List.flatMap_nil, hfs]
    rfl
  constructor
  · rw [hdoc]
    rfl
  · simp

/-- C2 (amended) -- render/extract/reconcile round trip: for every
canonical store whose file paths are nonempty, bracket-free and free of
line terminators, whose comments are trimmed, nonempty and have no line
starting `##` or `> `, and whose keys are distinct, reconciling the
extraction of the rendered document against the same store yields
`changed = false` and an **empty** `updated` list (the reconciler is
update-only; `updated` is not the canonical list). -/
theorem c2_amended_roundtrip (cs : List ReviewComment)
    (fl : String → Option String) (ic : Bool)
    (hgood : ∀ c ∈ cs, goodPath c.filePath ∧ goodBody c.comment)
    (hnd : (cs.map reviewKey).Nodup) :
    applyMarkdownChanges cs
        (mapGet (parseMarkdownComments
          (generateEnhancedMarkdown (cs.map toNote) fl ic))) = ([], false) := by
  by_cases hcs : cs = []
  · subst hcs
    rfl
  · have hnotes : cs.map toNote ≠ [] := by
      simpa using hcs
    have hpaths : ∀ n ∈ cs.map toNote, goodPath n.filePath := by
      intro n hn
      rw [List.mem_map] at hn
      obtain ⟨c, hc, rfl⟩ := hn
      exact (hgood c hc).1
    have hbodies : ∀ n ∈ cs.map toNote, goodBody n.comment := by
      intro n hn
      rw [List.mem_map] at hn
      obtain ⟨c, hc, rfl⟩ := hn
      exact (hgood c hc).2
    rw [parseMarkdownComments_render (cs.map toNote) fl ic hnotes hpaths hbodies]
    rw [pairs_eq]
    apply applyMarkdownChanges_of_self
    intro c hc
    have hAN : ((((cs.map toNote).map (fun n => n.filePath)).dedup.mergeSort
        (fun a b => a ≤ b)).flatMap (fun fp =>
          sortNotes ((cs.map toNote).filter (fun n => n.filePath == fp)))).Perm
        (cs.map toNote) := by
      have h1 : ∀ fp ∈ (((cs.map toNote).map (fun n => n.filePath)).dedup.mergeSort
          (fun a b => a ≤ b)),
          (sortNotes ((cs.map toNote).filter (fun n => n.filePath == fp))).Perm
            ((cs.map toNote).filter (fun n => n.filePath == fp)) := by
        intro fp _
        exact List.mergeSort_perm _ _
      have h2 := flatMap_perm_congr h1
      have h3 := filter_groups_perm
        ((((cs.map toNote).map (fun n => n.filePath)).dedup.mergeSort
          (fun a b => a ≤ b))) (cs.map toNote)
        ((List.mergeSort_perm _ _).nodup_iff.2 (List.nodup_dedup _))
        (fun n hn => List.mem_mergeSort.2 (List.mem_dedup.2
          (List.mem_map.2 ⟨n, hn, rfl⟩)))
      exact h2.trans h3
    have hkeysnd : (((((cs.map toNote).map (fun n => n.filePath)).dedup.mergeSort
        (fun a b => a ≤ b)).flatMap (fun fp =>
          sortNotes ((cs.map toNote).filter (fun n => n.filePath == fp)))).map
        noteKey).Nodup := by
      have h4 := hAN.map noteKey
      have h5 : (cs.map toNote).map noteKey = cs.map reviewKey := by
        rw [List.map_map]
        exact map_congr_mem (fun c _ => noteKey_toNote c)
      rw [h5] at h4
      exact h4.nodup_iff.2 hnd
    have hmem : noteKV (toNote c) ∈ ((((cs.map toNote).map
        (fun n => n.filePath)).dedup.mergeSort (fun a b => a ≤ b)).flatMap
          (fun fp => sortNotes ((cs.map toNote).filter
            (fun n => n.filePath == fp)))).map noteKV :=
      List.mem_map.2 ⟨toNote c, hAN.mem_iff.2 (List.mem_map.2 ⟨c, hc, rfl⟩), rfl⟩
    obtain ⟨pre, post, hsplit⟩ := List.append_of_mem hmem
    have h6 : (((((cs.map toNote).map (fun n => n.filePath)).dedup.mergeSort
        (fun a b => a ≤ b)).flatMap (fun fp =>
          sortNotes ((cs.map toNote).filter (fun n => n.filePath == fp)))).map
        noteKV).map Prod.fst =
        pre.map Prod.fst ++ reviewKey c :: post.map Prod.fst := by
      rw [hsplit]
      simp [noteKV, noteKey_toNote]
    have hkeys : (((((cs.map toNote).map (fun n => n.filePath)).dedup.mergeSort
        (fun a b => a ≤ b)).flatMap (fun fp =>
          sortNotes ((cs.map toNote).filter (fun n => n.filePath == fp)))).map
        noteKV).map Prod.fst =
        ((((cs.map toNote).map (fun n => n.filePath)).dedup.mergeSort
          (fun a b => a ≤ b)).flatMap (fun fp =>
            sortNotes ((cs.map toNote).filter (fun n => n.filePath == fp)))).map
          noteKey := by
      rw [List.map_map]
      rfl
    have hknotin : reviewKey c ∉ post.map Prod.fst := by
      have h7 : (pre.map Prod.fst ++ reviewKey c :: post.map Prod.fst).Nodup := by
        rw [← h6, hkeys]
        exact hkeysnd
      have h8 := (List.nodup_append.1 h7).2.1
      exact (List.nodup_cons.1 h8).1
    rw [hsplit]
    exact mapGet_insertAll_found pre post (reviewKey c) c.comment [] hknotin

/-- C2 -- witness: the amended theorem on the concrete singleton store. -/
theorem c2_amended_roundtrip_witness :
    applyMarkdownChanges [sampleRC]
        (mapGet (parseMarkdownComments
          (generateEnhancedMarkdown ([sampleRC].map toNote) (fun _ => none)
            true))) = ([], false) :=
  c2_amended_roundtrip [sampleRC] (fun _ => none) true
    (by
      intro c hc
      rw [List.mem_singleton] at hc
      subst hc
      exact ⟨⟨by decide, by decide, by decide⟩, by decide, by decide, by decide⟩)
    (by decide)

end VN
